import Mathlib

/-!
Verification of the haze core: the `reportable` range/matcher/filter engine,
the `http` request model (with an explicit store for Go's reference-semantics
maps), and the `matchlang` finite-state-machine parser.  Strings are embedded
as lists of characters so that every Go string operation (`strings.Split`,
`strings.Replace`, `strconv.Atoi`, ...) can be modelled exactly.
-/

namespace Haze

/-- Strings (and byte slices) are modelled as lists of characters. -/
abbrev Str := List Char

/-- Convert a Lean string literal to the embedded string type. -/
def strOf (s : String) : Str := s.data

/-- Model of `strings.Split` with a one-character separator. -/
def splitChar (sep : Char) : Str → List Str
  | [] => [[]]
  | c :: rest =>
    if c = sep then [] :: splitChar sep rest
    else
      match splitChar sep rest with
      | [] => [[c]]
      | g :: gs => (c :: g) :: gs

/-- Model of `strings.Split` / `bytes.Split` with a two-character separator
(used for `"\r\n"` and `"; "`); scans left to right, non-overlapping. -/
def split2 (a b : Char) : Str → List Str
  | [] => [[]]
  | [c] => [[c]]
  | c :: d :: rest =>
    if c = a ∧ d = b then [] :: split2 a b rest
    else
      match split2 a b (d :: rest) with
      | [] => [[c]]
      | g :: gs => (c :: g) :: gs

/-- Boolean test whether `p` is a prefix of `s`. -/
def isPref : Str → Str → Bool
  | [], _ => true
  | _ :: _, [] => false
  | a :: xs, b :: ys => a == b && isPref xs ys

/-- Model of `strings.Index` for a one-character pattern: first index, `-1` if absent. -/
def idxOfChar (c : Char) : Str → Int
  | [] => -1
  | a :: rest =>
    if a = c then 0
    else
      let j := idxOfChar c rest
      if j < 0 then -1 else j + 1

/-- Model of `bytes.Index` for an arbitrary pattern: first index, `-1` if absent. -/
def idxSeq (pat : Str) : Str → Int
  | [] => if isPref pat [] then 0 else -1
  | c :: rest =>
    if isPref pat (c :: rest) then 0
    else
      let j := idxSeq pat rest
      if j < 0 then -1 else j + 1

/-- Model of `strings.Replace(s, old, new, 1)`: replace the first occurrence of `old`.
For an empty `old`, Go inserts `new` at the start of `s` and stops. -/
def replaceFirst (s old new : Str) : Str :=
  match s with
  | [] => if old = [] then new else []
  | c :: rest =>
    if old = [] then new ++ c :: rest
    else if isPref old (c :: rest) then new ++ (c :: rest).drop old.length
    else c :: replaceFirst rest old new

/-- Model of `strings.Replace(s, old, new, -1)` for a one-character `old`. -/
def replaceAllChar (old : Char) (new : Str) : Str → Str
  | [] => []
  | c :: rest => (if c = old then new else [c]) ++ replaceAllChar old new rest

/-- ASCII whitespace test used by the `strings.TrimSpace` model. -/
def isSpaceCh (c : Char) : Bool := c == ' ' || c == '\t' || c == '\n' || c == '\r'

/-- Model of `strings.TrimSpace`: strip leading and trailing whitespace. -/
def trimSpace (s : Str) : Str :=
  ((s.dropWhile isSpaceCh).reverse.dropWhile isSpaceCh).reverse

/-- Model of `strings.SplitN(s, sep, 2)` for a one-character separator:
split at the first occurrence only. -/
def splitN2 (sep : Char) (s : Str) : List Str :=
  let i := idxOfChar sep s
  if 0 ≤ i then [s.take i.toNat, s.drop (i.toNat + 1)] else [s]

/-! ## `strconv.Atoi` model -/

/-- Decimal digit test. -/
def isDigitCh (c : Char) : Bool := '0' ≤ c && c ≤ '9'

/-- Numeric value of a decimal digit character. -/
def digitVal (c : Char) : Nat := c.toNat - '0'.toNat

/-- Big-endian decimal value of a digit string. -/
def digitsVal (l : Str) : Nat := l.foldl (fun acc c => 10 * acc + digitVal c) 0

/-- Strip an optional leading sign, reporting whether it was `'-'`. -/
def stripSign (s : Str) : Bool × Str :=
  match s with
  | [] => (false, [])
  | c :: rest =>
    if c = '-' then (true, rest)
    else if c = '+' then (false, rest)
    else (false, s)

/-- Syntactic validity test of `strconv.Atoi`: after the optional sign there
must be at least one character and all characters must be decimal digits. -/
def validInt (s : Str) : Bool :=
  let ds := (stripSign s).2
  !ds.isEmpty && ds.all isDigitCh

/-- Largest value of Go's 64-bit `int`. -/
def maxInt64 : Int := 2 ^ 63 - 1

/-- Smallest value of Go's 64-bit `int`. -/
def minInt64 : Int := -(2 ^ 63)

/-- Model of `strconv.Atoi` with the error ignored (as the source does): a syntactically
invalid string yields `0`; an out-of-range value is clamped to the `int`
boundary (Go returns the clamped value together with a range error). -/
def atoi (s : Str) : Int :=
  if validInt s then
    let neg := (stripSign s).1
    let v : Int := (digitsVal (stripSign s).2 : Nat)
    if neg then (if -v < minInt64 then minInt64 else -v)
    else (if maxInt64 < v then maxInt64 else v)
  else 0

/-! ## Package `reportable` -/

namespace Reportable

/-- An HTTP response summary: status code, body length, raw bytes. -/
structure Response where
  Code : Int
  Length : Int
  Raw : Str

/-- Model of `type Matcher func(http.Response) bool` -/
def Matcher := Response → Bool

/-- Model of `type Filter func(http.Response) bool` -/
def Filter := Response → Bool

/-- Model of `type Range struct{ From, To int }` -/
structure Range where
  From : Int
  To : Int
  deriving DecidableEq

/-- Model of `isValueInRanges`: linear scan, true iff `val` lies in some range. -/
def isValueInRanges (ranges : List Range) (val : Int) : Bool :=
  ranges.any fun ran => decide (val ≥ ran.From) && decide (val ≤ ran.To)

/-- Model of `parseRange`: split on `"-"`; one component gives `Range{a,a}`,
two components give `Range{a,b}`; `Atoi` errors are ignored. -/
def parseRange (val : Str) : Range :=
  let splitted := splitChar '-' val
  let fromv := atoi (splitted.headD [])
  let tov := if splitted.length = 2 then atoi (splitted.getD 1 []) else fromv
  { From := fromv, To := tov }

/-- Model of `parseRanges`: split on `","` and parse each token. -/
def parseRanges (val : Str) : List Range :=
  (splitChar ',' val).map parseRange

/-- Model of `MatchCodes`: membership of the status code in the parsed ranges. -/
def MatchCodes (codes : Str) : Matcher :=
  let ranges := parseRanges codes
  fun res => isValueInRanges ranges res.Code

/-- Model of `MatchLengths`: membership of the body length in the parsed ranges. -/
def MatchLengths (lens : Str) : Matcher :=
  let ranges := parseRanges lens
  fun res => isValueInRanges ranges res.Length

/-- Model of `FilterCodes`: negation of code-range membership. -/
def FilterCodes (codes : Str) : Filter :=
  let ranges := parseRanges codes
  fun res => !(isValueInRanges ranges res.Code)

/-- Model of `FilterLengths`: negation of length-range membership. -/
def FilterLengths (lens : Str) : Filter :=
  let ranges := parseRanges lens
  fun res => !(isValueInRanges ranges res.Length)

/-- Model of `IsReportable`: the matcher loop sets `matched` on the first hit
(`List.any`), the filter loop clears `filtered` on the first miss
(`List.all`); the result is `filtered && (matched || len(matchers) == 0)`. -/
def IsReportable (res : Response) (matchers : List Matcher) (filters : List Filter) : Bool :=
  let matched := matchers.any fun matcher => matcher res
  let filtered := filters.all fun filter => filter res
  filtered && (matched || matchers.length == 0)

end Reportable

/-! ## Package `http`

Go maps have reference semantics: `r.Clone()` deep-copies the header and
cookie maps precisely so that mutating the clone's map does not touch the
original's.  To make that observable, the embedding threads an explicit
store of maps: a `Request` holds references (indices) into the store. -/

namespace Http

/-- Contents of a Go `map[string]string`. -/
def GoMap := Str → Option Str

/-- The empty map. -/
def emptyMap : GoMap := fun _ => none

/-- Model of `m[k] = v` -/
def mapInsert (m : GoMap) (k v : Str) : GoMap :=
  fun k' => if k' = k then some v else m k'

/-- Model of `delete(m, k)` -/
def mapDelete (m : GoMap) (k : Str) : GoMap :=
  fun k' => if k' = k then none else m k'

/-- The heap of live maps: `maps i` is the contents of reference `i`;
references `≥ next` are unallocated. -/
structure Store where
  maps : Nat → GoMap
  next : Nat

/-- Allocate a fresh map with contents `m`; returns the new store
(the fresh reference is the old `next`). -/
def allocStore (σ : Store) (m : GoMap) : Store :=
  { maps := fun j => if j = σ.next then m else σ.maps j, next := σ.next + 1 }

/-- Overwrite the contents of reference `i`. -/
def storeSet (σ : Store) (i : Nat) (m : GoMap) : Store :=
  { maps := fun j => if j = i then m else σ.maps j, next := σ.next }

/-- Model of `type Request struct { ... }`: header and cookie maps are store
references, everything else is an immediate value. -/
structure Request where
  Method : Str
  RequestUri : Str
  Path : Str
  Query : Str
  ProtocolVersion : Str
  Headers : Nat
  Cookies : Nat
  Body : Str
  deriving DecidableEq

/-- Model of `parseRequestLine`: split on single spaces and take the first three
components (`none` models the Go panic when fewer than three exist). -/
def parseRequestLine (requestLine : Str) : Option (Str × Str × Str) :=
  match splitChar ' ' requestLine with
  | method :: requestUri :: protocolVersion :: _ => some (method, requestUri, protocolVersion)
  | _ => none

/-- Model of `parseRequestUri`: split on the first `"?"` when its index is positive;
otherwise the whole URI is the path and the query is empty. -/
def parseRequestUri (requestUri : Str) : Str × Str :=
  let i := idxOfChar '?' requestUri
  if 0 < i then (requestUri.take i.toNat, requestUri.drop (i.toNat + 1))
  else (requestUri, [])

/-- Model of `parseHeader`: split on the first `":"` (at most two parts) and trim the
value; a line without a colon makes the Go code panic (`none`). -/
def parseHeader (rawHeader : Str) : Option (Str × Str) :=
  match splitN2 ':' rawHeader with
  | [name, val] => some (name, trimSpace val)
  | _ => none

/-- The header loop of `parseHeaders`: stop at the first empty line,
otherwise parse and insert each `Name: Value` line. -/
def parseHeadersLoop : List Str → GoMap → Option GoMap
  | [], m => some m
  | l :: rest, m =>
    if l = [] then some m
    else
      match parseHeader l with
      | some (name, val) => parseHeadersLoop rest (mapInsert m name val)
      | none => none

/-- Model of `parseHeaders`: all lines after the request line, up to the first blank. -/
def parseHeaders (rawReq : Str) : Option GoMap :=
  parseHeadersLoop ((split2 '\r' '\n' rawReq).drop 1) emptyMap

/-- Model of `extractBody`: everything after the first `"\r\n\r\n"`; Go computes
`bytes.Index(raw, sep) + 4` and slices, panicking when the resulting index
is out of range (`none`). -/
def extractBody (raw : Str) : Option Str :=
  let bodyIndex := idxSeq (strOf "\r\n\r\n") raw + 4
  if 0 ≤ bodyIndex ∧ bodyIndex.toNat ≤ raw.length then some (raw.drop bodyIndex.toNat)
  else none

/-- Model of `parseRawCookies`: split the raw cookie string on `"; "`, each piece on
`"="` (key is part 0, value part 1; fewer than two parts is a Go panic),
escape `"` as `%22` in the value, and insert. -/
def parseRawCookies (m : GoMap) (raw : Str) : Option GoMap :=
  (split2 ';' ' ' raw).foldl
    (fun acc c =>
      match acc with
      | none => none
      | some m' =>
        match splitChar '=' c with
        | key :: val :: _ => some (mapInsert m' key (replaceAllChar '"' (strOf "%22") val))
        | _ => none)
    (some m)

/-- The `"Cookie"` header name. -/
def cookieKey : Str := strOf "Cookie"

/-- Model of `http.Parse`: request line, URI split, headers, cookie extraction
(removing the `Cookie` header), body; the two maps are allocated in the
store and the `Request` holds their references. -/
def Parse (bs : Str) (σ : Store) : Option (Request × Store) :=
  match parseRequestLine ((split2 '\r' '\n' bs).headD []) with
  | none => none
  | some (method, requestUri, protocolVersion) =>
    match parseHeaders bs with
    | none => none
    | some headers0 =>
      let pq := parseRequestUri requestUri
      match (match headers0 cookieKey with
             | some rawCookies =>
               (parseRawCookies emptyMap rawCookies).map
                 (fun cm => (mapDelete headers0 cookieKey, cm))
             | none => some (headers0, emptyMap)) with
      | none => none
      | some (headers, cookies) =>
        match extractBody bs with
        | none => none
        | some body =>
          let σ1 := allocStore σ headers
          let σ2 := allocStore σ1 cookies
          some ({ Method := method, RequestUri := requestUri, Path := pq.1, Query := pq.2,
                  ProtocolVersion := protocolVersion, Headers := σ.next, Cookies := σ1.next,
                  Body := body }, σ2)

/-- The `Cookie` header value produced by `parseHeaders`, if any
(a convenience projection used to state the cookie-extraction claim). -/
def cookieHeaderOf (bs : Str) : Option Str :=
  (parseHeaders bs).bind fun hs => hs cookieKey

/-- Model of `Request.Clone`: copy every field, deep-copying the two maps into
freshly allocated references. -/
def Clone (r : Request) (σ : Store) : Request × Store :=
  let σ1 := allocStore σ (σ.maps r.Headers)
  let σ2 := allocStore σ1 (σ.maps r.Cookies)
  ({ r with Headers := σ.next, Cookies := σ1.next }, σ2)

/-- Model of `Request.WithPath`: clone, substitute the first occurrence of the old
path inside the request URI, set the new path. -/
def WithPath (r : Request) (path : Str) (σ : Store) : Request × Store :=
  let rc := Clone r σ
  ({ rc.1 with RequestUri := replaceFirst r.RequestUri r.Path path, Path := path }, rc.2)

/-- Model of `Request.WithQuery`: clone, substitute the first occurrence of the old
query inside the request URI, set the new query. -/
def WithQuery (r : Request) (query : Str) (σ : Store) : Request × Store :=
  let rc := Clone r σ
  ({ rc.1 with RequestUri := replaceFirst r.RequestUri r.Query query, Query := query }, rc.2)

/-- Model of `Request.WithBody`: clone with a new body. -/
def WithBody (r : Request) (body : Str) (σ : Store) : Request × Store :=
  let rc := Clone r σ
  ({ rc.1 with Body := body }, rc.2)

/-- Model of `Request.WithHeader`: clone, then insert into the clone's header map. -/
def WithHeader (r : Request) (key val : Str) (σ : Store) : Request × Store :=
  let rc := Clone r σ
  (rc.1, storeSet rc.2 rc.1.Headers (mapInsert (rc.2.maps rc.1.Headers) key val))

/-- Model of `Request.WithCookie`: clone, then insert into the clone's cookie map. -/
def WithCookie (r : Request) (key val : Str) (σ : Store) : Request × Store :=
  let rc := Clone r σ
  (rc.1, storeSet rc.2 rc.1.Cookies (mapInsert (rc.2.maps rc.1.Cookies) key val))

/-- Model of `Request.WithCookieString`: clone, rebind the clone's cookie field to a
fresh map populated by `parseRawCookies` (`none` models the Go panic on a
malformed cookie string). -/
def WithCookieString (r : Request) (val : Str) (σ : Store) : Option (Request × Store) :=
  let rc := Clone r σ
  match parseRawCookies emptyMap val with
  | some cm => some ({ rc.1 with Cookies := rc.2.next }, allocStore rc.2 cm)
  | none => none

/-- Model of `Request.WithHeaderString`: parse the `Name: Value` string, clone, insert
into the clone's header map (`none` models the Go panic on a colonless
string). -/
def WithHeaderString (r : Request) (header : Str) (σ : Store) : Option (Request × Store) :=
  match parseHeader header with
  | some (key, val) =>
    let rc := Clone r σ
    some (rc.1, storeSet rc.2 rc.1.Headers (mapInsert (rc.2.maps rc.1.Headers) key val))
  | none => none

/-- The spec invariant: `requestURI` equals `path + "?" + query` when the
query is non-empty, and equals `path` otherwise. -/
def UriConsistent (r : Request) : Prop :=
  r.RequestUri = if r.Query = [] then r.Path else r.Path ++ '?' :: r.Query

/-- The invariant is decidable (used to evaluate it on concrete requests). -/
instance (r : Request) : Decidable (UriConsistent r) := by
  unfold UriConsistent
  infer_instance

/-- Frame property of a cloning mutator: the original request's map
contents are untouched and the result holds fresh references. -/
def cloneFrame (r : Request) (σ : Store) (out : Request × Store) : Prop :=
  out.2.maps r.Headers = σ.maps r.Headers ∧ out.2.maps r.Cookies = σ.maps r.Cookies
  ∧ out.1.Headers ≠ r.Headers ∧ out.1.Cookies ≠ r.Cookies

end Http

/-! ## Package `matchlang`

The lexer is not among the analysed sources; the parser is settled at the
token level: `ParseTokens` is `matchlang.Parse` applied to an already lexed
token list. -/

namespace Matchlang

/-- The token types referenced by the parser (the `And` and `Literal` kinds
are declared by the lexer and never inspected by the parser). -/
inductive LexTokenType where
  | CodeToken
  | SizeToken
  | TextToken
  | EqualsToken
  | NotEqualsToken
  | AndToken
  | LiteralToken
  deriving DecidableEq

/-- Model of `type LexToken struct { Type; Value string }` -/
structure LexToken where
  type : LexTokenType
  value : Str
  deriving DecidableEq

/-- The dynamically typed `Ast` (`interface{}`), with `nilast` for the
zero-value AST; the Go enumerations are plain `int`s, kept as `Int` so that
the `-1` returned by `lexTokenToOperator` for non-operator tokens and the
zero default of `lexTokenToIdentifier` are representable. -/
inductive Ast where
  | nilast
  | identifier (value : Int)
  | literal (value : Str)
  | comparison (operator : Int) (left right : Ast)
  | logicalExpression (operator : Int) (left right : Ast)
  deriving DecidableEq

/-- Model of `lexTokenToOperator`: `EqualsOperator = 0`, `NotEqualsOperator = 1`,
any other token type falls through to `-1`. -/
def lexTokenToOperator (token : LexToken) : Int :=
  match token.type with
  | .EqualsToken => 0
  | .NotEqualsToken => 1
  | _ => -1

/-- Model of `lexTokenToIdentifier`: `Code = 0`, `Size = 1`, `Text = 2`; an unhandled
token type leaves the zero value `0`. -/
def lexTokenToIdentifier (token : LexToken) : Ast :=
  match token.type with
  | .CodeToken => .identifier 0
  | .SizeToken => .identifier 1
  | .TextToken => .identifier 2
  | _ => .identifier 0

/-- The parser's state enumeration. -/
inductive ParserState where
  | ParserConsumingState
  | ParserConsumedLeftState
  | ParserConsumedOperatorState
  | ParserConsumedRightState
  | ParserConsumedLogicalOperatorState
  | ParserDoneState
  deriving DecidableEq

/-- Model of `type Parser struct { tokens; pos; state; ast }` -/
structure Parser where
  tokens : List LexToken
  pos : Nat
  state : ParserState
  ast : Ast
  deriving DecidableEq

/-- Index into the token list with a Go `int` index: out of range is a panic
(`none`). -/
def getTok (ts : List LexToken) (i : Int) : Option LexToken :=
  if h : 0 ≤ i ∧ i.toNat < ts.length then some (ts.get ⟨i.toNat, h.2⟩) else none

/-- Model of `Parser.consume`: one step of the state machine.  Returns
`some (false, p)` when already done (the Go `return false`),
`some (true, p')` after a successful step (state advanced, `pos`
incremented), and `none` when building the `Comparison` node reads a token
index outside the list (the Go panic).  The `ConsumedRight` step compares
`pos < len(tokens) - 1` over Go `int`s and overwrites the AST with a fresh
`Comparison` from `tokens[pos-3]`, `tokens[pos-2]`, `tokens[pos-1]`;
`ConsumedLogicalOperator` matches no switch case, so only `pos` advances. -/
def consume (p : Parser) : Option (Bool × Parser) :=
  if p.state = .ParserDoneState then some (false, p)
  else
    let stepped : Option Parser :=
      match p.state with
      | .ParserConsumingState => some { p with state := .ParserConsumedLeftState }
      | .ParserConsumedLeftState => some { p with state := .ParserConsumedOperatorState }
      | .ParserConsumedOperatorState => some { p with state := .ParserConsumedRightState }
      | .ParserConsumedRightState =>
        match getTok p.tokens ((p.pos : Int) - 3), getTok p.tokens ((p.pos : Int) - 2),
              getTok p.tokens ((p.pos : Int) - 1) with
        | some tl, some tmid, some tr =>
          some { p with
                 state := if (p.pos : Int) < (p.tokens.length : Int) - 1
                          then .ParserConsumingState else .ParserDoneState,
                 ast := .comparison (lexTokenToOperator tmid) (lexTokenToIdentifier tl)
                          (.literal tr.value) }
        | _, _, _ => none
      | _ => some p
    stepped.map fun q => (true, { q with pos := q.pos + 1 })

/-- Outcome of running the parser loop: a returned AST, a Go panic, or fuel
exhaustion (never reached with the fuel supplied by `ParseTokens`). -/
inductive ParseOutcome where
  | ok (a : Ast)
  | panicked
  | outOfFuel
  deriving DecidableEq

/-- The `for parser.consume() {}` loop, fuelled. -/
def runParser : Nat → Parser → ParseOutcome
  | 0, _ => .outOfFuel
  | fuel + 1, p =>
    match consume p with
    | none => .panicked
    | some (false, q) => .ok q.ast
    | some (true, q) => runParser fuel q

/-- Iterate `consume` exactly `n` successful steps (stopping early if the
loop finishes); `none` is a panic. -/
def consumeN : Nat → Parser → Option Parser
  | 0, p => some p
  | n + 1, p =>
    match consume p with
    | none => none
    | some (false, q) => some q
    | some (true, q) => consumeN n q

/-- The parser `Parse` builds before looping. -/
def initParser (ts : List LexToken) : Parser :=
  { tokens := ts, pos := 0, state := .ParserConsumingState, ast := .nilast }

/-- Model of `matchlang.Parse` from a token list (the lexer is outside the analysed
sources): run the consume loop and return the final AST. -/
def ParseTokens (ts : List LexToken) : ParseOutcome :=
  runParser (4 * ts.length + 8) (initParser ts)

/-- The token list of a chain of comparisons separated by a (never
inspected) separator token: `t₁ sep t₂ sep ... tₖ` with each `tᵢ` a triple. -/
def chainToks (sep : LexToken) : List (LexToken × LexToken × LexToken) → List LexToken
  | [] => []
  | [(a, b, c)] => [a, b, c]
  | (a, b, c) :: rest => a :: b :: c :: sep :: chainToks sep rest

/-- The `Comparison` node the parser builds from one token triple. -/
def mkComp (t : LexToken × LexToken × LexToken) : Ast :=
  .comparison (lexTokenToOperator t.2.1) (lexTokenToIdentifier t.1) (.literal t.2.2.value)

/-- An AST contains no `LogicalExpression` node. -/
def astNoLogical : Ast → Bool
  | .nilast => true
  | .identifier _ => true
  | .literal _ => true
  | .comparison _ l r => astNoLogical l && astNoLogical r
  | .logicalExpression _ _ _ => false

end Matchlang

/-! ## Decimal printing (for stating range-text claims over numerals) -/

/-- The character of a decimal digit. -/
def digitChar : Nat → Char
  | 0 => '0' | 1 => '1' | 2 => '2' | 3 => '3' | 4 => '4'
  | 5 => '5' | 6 => '6' | 7 => '7' | 8 => '8' | _ => '9'

/-- Fuelled decimal printer (most significant digit first). -/
def natStrAux : Nat → Nat → Str
  | 0, _ => []
  | fuel + 1, n =>
    if n < 10 then [digitChar n]
    else natStrAux fuel (n / 10) ++ [digitChar (n % 10)]

/-- Decimal representation of a natural number. -/
def natStr (n : Nat) : Str := natStrAux (n + 1) n

/-! ## Concrete inputs used by witness theorems -/

/-- An empty store. -/
def σ0 : Http.Store := { maps := fun _ => Http.emptyMap, next := 0 }

/-- A concrete response for witnesses. -/
def resW : Reportable.Response := { Code := 200, Length := 10, Raw := [] }

/-- The always-true filter. -/
def fTrueW : Reportable.Filter := fun _ => true

/-- The never-true matcher. -/
def mFalseW : Reportable.Matcher := fun _ => false

/-- Concrete lexed tokens for witnesses. -/
def tokCode : Matchlang.LexToken := { type := .CodeToken, value := strOf "code" }

/-- The `==` token. -/
def tokEq : Matchlang.LexToken := { type := .EqualsToken, value := strOf "==" }

/-- The `size` token. -/
def tokSize : Matchlang.LexToken := { type := .SizeToken, value := strOf "size" }

/-- The `!=` token. -/
def tokNe : Matchlang.LexToken := { type := .NotEqualsToken, value := strOf "!=" }

/-- A literal token. -/
def tokLit (s : String) : Matchlang.LexToken := { type := .LiteralToken, value := strOf s }

/-- The `and` token. -/
def tokAnd : Matchlang.LexToken := { type := .AndToken, value := strOf "and" }

/-- The round-trip raw request of the spec. -/
def rawRoundTrip : Str := strOf "GET /a?x=1 HTTP/1.1\r\nHost: h\r\n\r\n"

/-- A raw request carrying a cookie header (with an embedded quote). -/
def rawWithCookie : Str := strOf "GET / HTTP/1.1\r\nCookie: a=1; b=\"x\"\r\n\r\n"

/-- A raw request without a query string. -/
def rawNoQuery : Str := strOf "GET /a HTTP/1.1\r\n\r\n"

/-- A raw request whose URI ends in a bare `?`. -/
def rawBareQm : Str := strOf "GET /a? HTTP/1.1\r\n\r\n"

/-- A concrete request value for the mutator witnesses (references 0 and 1
are live in `σW`). -/
def reqW : Http.Request :=
  { Method := strOf "GET", RequestUri := strOf "/a?x=1", Path := strOf "/a",
    Query := strOf "x=1", ProtocolVersion := strOf "HTTP/1.1",
    Headers := 0, Cookies := 1, Body := [] }

/-- A concrete store for the mutator witnesses. -/
def σW : Http.Store :=
  { maps := fun i =>
      if i = 0 then Http.mapInsert Http.emptyMap (strOf "Host") (strOf "h")
      else if i = 1 then Http.mapInsert Http.emptyMap (strOf "a") (strOf "1")
      else Http.emptyMap,
    next := 2 }

/-! ## Theorems -/

/-- Model of `strconv.Atoi` on an invalid string yields `0`. -/
theorem atoi_invalid {s : Str} (h : validInt s = false) : atoi s = 0 := by
  simp [atoi, h]

/-- Model of `splitChar` never returns the empty list. -/
theorem splitChar_ne_nil (sep : Char) (s : Str) : splitChar sep s ≠ [] := by
  induction s with
  | nil => simp [splitChar]
  | cons c rest ih =>
    simp only [splitChar]
    split
    · simp
    · split <;> simp

/-- Splitting a separator-free string is the identity. -/
theorem splitChar_eq_single {sep : Char} {s : Str} (h : sep ∉ s) : splitChar sep s = [s] := by
  induction s with
  | nil => rfl
  | cons c rest ih =>
    simp only [List.mem_cons, not_or] at h
    simp only [splitChar, if_neg (show ¬c = sep from fun hc => h.1 hc.symm), ih h.2]

/-- Splitting peels off a separator-free head segment. -/
theorem splitChar_sep_append {sep : Char} {x : Str} (y : Str) (h : sep ∉ x) :
    splitChar sep (x ++ sep :: y) = x :: splitChar sep y := by
  induction x with
  | nil => simp [splitChar]
  | cons c rest ih =>
    simp only [List.mem_cons, not_or] at h
    have hs := ih h.2
    simp only [List.cons_append, splitChar,
      if_neg (show ¬c = sep from fun hc => h.1 hc.symm)]
    rw [show rest.append (sep :: y) = rest ++ sep :: y from rfl, hs]

/-- Every character `digitChar` produces is a decimal digit. -/
theorem isDigit_digitChar (d : Nat) : isDigitCh (digitChar d) = true := by
  match d with
  | 0 | 1 | 2 | 3 | 4 | 5 | 6 | 7 | 8 => decide
  | n + 9 => exact (by decide : isDigitCh '9' = true)

/-- Model of `digitVal` inverts `digitChar` below 10. -/
theorem digitVal_digitChar {d : Nat} (h : d < 10) : digitVal (digitChar d) = d := by
  interval_cases d <;> decide

/-- Every character of `natStrAux` is a decimal digit. -/
theorem natStrAux_digits :
    ∀ (fuel n : Nat), ∀ c ∈ natStrAux fuel n, isDigitCh c = true := by
  intro fuel
  induction fuel with
  | zero => intro n c hc; simp [natStrAux] at hc
  | succ k ih =>
    intro n c hc
    simp only [natStrAux] at hc
    split at hc
    · rcases List.mem_singleton.1 hc with rfl
      exact isDigit_digitChar n
    · rcases List.mem_append.1 hc with h | h
      · exact ih _ c h
      · rcases List.mem_singleton.1 h with rfl
        exact isDigit_digitChar (n % 10)

/-- Every character of `natStr` is a decimal digit. -/
theorem natStr_digits (n : Nat) : ∀ c ∈ natStr n, isDigitCh c = true :=
  natStrAux_digits (n + 1) n

/-- A non-digit character never occurs in a printed numeral. -/
theorem not_mem_natStr {c : Char} (h : isDigitCh c = false) (n : Nat) : c ∉ natStr n := by
  intro hm
  rw [natStr_digits n c hm] at h
  cases h

/-- Model of `natStr` is never empty. -/
theorem natStr_ne_nil (n : Nat) : natStr n ≠ [] := by
  simp only [natStr, natStrAux]
  split <;> simp

/-- Folding digits over an appended last digit. -/
theorem digitsVal_append_singleton (xs : Str) (c : Char) :
    digitsVal (xs ++ [c]) = 10 * digitsVal xs + digitVal c := by
  simp [digitsVal, List.foldl_append]

/-- The decimal value of `natStrAux fuel n` is `n` when the fuel bounds the
magnitude. -/
theorem natStrAux_val :
    ∀ (fuel n : Nat), n < 10 ^ fuel → digitsVal (natStrAux fuel n) = n := by
  intro fuel
  induction fuel with
  | zero =>
    intro n hn
    interval_cases n
    rfl
  | succ k ih =>
    intro n hn
    simp only [natStrAux]
    split
    · next h =>
      simp [digitsVal, digitVal_digitChar h]
    · next h =>
      rw [digitsVal_append_singleton, ih (n / 10) ?_, digitVal_digitChar (Nat.mod_lt n (by omega))]
      · omega
      · rw [Nat.div_lt_iff_lt_mul (by omega)]
        calc n < 10 ^ (k + 1) := hn
        _ = 10 ^ k * 10 := by rw [pow_succ]

/-- A natural is always smaller than `10 ^ (n + 1)`. -/
theorem lt_ten_pow (n : Nat) : n < 10 ^ (n + 1) := by
  induction n with
  | zero => decide
  | succ k ih =>
    have h1 : (0 : Nat) < 10 ^ (k + 1) := pow_pos (by omega) _
    have h2 : 10 ^ (k + 2) = 10 * 10 ^ (k + 1) := by ring
    omega

/-- The decimal value of `natStr n` is `n`. -/
theorem digitsVal_natStr (n : Nat) : digitsVal (natStr n) = n :=
  natStrAux_val (n + 1) n (lt_ten_pow n)

/-- Model of `stripSign` leaves an all-digit, non-empty string untouched. -/
theorem stripSign_digits {s : Str} (hd : ∀ c ∈ s, isDigitCh c = true) (hne : s ≠ []) :
    stripSign s = (false, s) := by
  match s, hne with
  | c :: rest, _ =>
    have hc := hd c (List.mem_cons_self c rest)
    have h1 : ¬c = '-' := fun h => by rw [h] at hc; cases hc
    have h2 : ¬c = '+' := fun h => by rw [h] at hc; cases hc
    simp [stripSign, h1, h2]

/-- Printed numerals are valid `Atoi` input. -/
theorem validInt_natStr (n : Nat) : validInt (natStr n) = true := by
  rw [validInt, stripSign_digits (natStr_digits n) (natStr_ne_nil n)]
  simp only [Bool.and_eq_true, Bool.not_eq_eq_eq_not, Bool.not_false, List.all_eq_true]
  exact ⟨by simp [List.isEmpty_iff, natStr_ne_nil n], fun c hc => natStr_digits n c hc⟩

/-- Model of `Atoi` inverts decimal printing for values in `int` range. -/
theorem atoi_natStr {n : Nat} (h : n < 2 ^ 63) : atoi (natStr n) = (n : Int) := by
  rw [show (2 : Nat) ^ 63 = 9223372036854775808 from by norm_num] at h
  rw [atoi, if_pos (validInt_natStr n),
    stripSign_digits (natStr_digits n) (natStr_ne_nil n)]
  simp only [digitsVal_natStr, maxInt64, minInt64,
    show (2 : Int) ^ 63 = 9223372036854775808 from by norm_num]
  have h2 : ¬((9223372036854775807 : Int) < (n : Int)) := by omega
  simp [h2]

namespace Reportable

/-- C1: `IsReportable` is true iff every filter passes and (some matcher
fires, or there is no matcher); in particular a response with no matchers
and one passing filter is reportable, and one non-firing matcher with no
filters makes it non-reportable. -/
theorem isReportable_filtersAnd_matchersOr :
    (∀ (res : Response) (ms : List Matcher) (fs : List Filter),
      IsReportable res ms fs = true ↔
        ((∀ f ∈ fs, f res = true) ∧ ((∃ m ∈ ms, m res = true) ∨ ms = [])))
    ∧ (∀ (res : Response) (f : Filter), f res = true → IsReportable res [] [f] = true)
    ∧ (∀ (res : Response) (m : Matcher), m res = false → IsReportable res [m] [] = false) := by
  refine ⟨?_, ?_, ?_⟩
  · intro res ms fs
    simp [IsReportable, List.any_eq_true, List.all_eq_true, List.length_eq_zero]
  · intro res f h
    simp [IsReportable, h]
  · intro res m h
    simp [IsReportable, h]

/-- Witness for C1 at concrete inputs. -/
theorem isReportable_filtersAnd_matchersOr_witness :
    IsReportable resW [] [fTrueW] = true ∧ IsReportable resW [mFalseW] [] = false :=
  ⟨isReportable_filtersAnd_matchersOr.2.1 resW fTrueW rfl,
   isReportable_filtersAnd_matchersOr.2.2 resW mFalseW rfl⟩

/-- C6: the filters are the pointwise negations of the matchers built from
the same ranges text. -/
theorem filter_is_negation_of_matcher :
    ∀ (s : Str) (r : Response),
      FilterCodes s r = !(MatchCodes s r) ∧ FilterLengths s r = !(MatchLengths s r) :=
  fun _ _ => ⟨rfl, rfl⟩

/-- C9: a range token whose numeric component is invalid parses to bound 0
(no error), and `parseRanges` is total: it returns one range per
comma-separated token of any input string. -/
theorem parseRange_silent_zero :
    (∀ t : Str, validInt ((splitChar '-' t).headD []) = false → (parseRange t).From = 0)
    ∧ (∀ t : Str, (splitChar '-' t).length = 2 →
        validInt ((splitChar '-' t).getD 1 []) = false → (parseRange t).To = 0)
    ∧ (∀ s : Str, (parseRanges s).length = (splitChar ',' s).length) := by
  refine ⟨?_, ?_, ?_⟩
  · intro t h
    show atoi ((splitChar '-' t).headD []) = 0
    exact atoi_invalid h
  · intro t hlen h
    show (if (splitChar '-' t).length = 2 then atoi ((splitChar '-' t).getD 1 [])
          else atoi ((splitChar '-' t).headD [])) = 0
    rw [if_pos hlen]
    exact atoi_invalid h
  · intro s
    simp [parseRanges]

/-- Witness for C9 at concrete malformed tokens. -/
theorem parseRange_silent_zero_witness :
    (parseRange (strOf "xy-3")).From = 0 ∧ (parseRange (strOf "3-zz")).To = 0 :=
  ⟨parseRange_silent_zero.1 (strOf "xy-3") (by decide),
   parseRange_silent_zero.2.1 (strOf "3-zz") (by decide) (by decide)⟩

/-- C2 counterexample: for the claimed law quantified over all *integers*,
take `a = -1`, `b = 3`, `c = 5`, `v = -1`: the claim's right-hand side
`(a ≤ v ≤ b) ∨ (v = c)` holds, but the parsed ranges of `"-1-3,5"` do not
contain `-1` (the leading minus sign makes the dash-split three-way, so the
first token parses to `Range{0,0}`). -/
theorem rangeText_negative_counterexample :
    isValueInRanges (parseRanges (strOf "-1-3,5")) (-1) = false
    ∧ (((-1 : Int) ≤ -1 ∧ (-1 : Int) ≤ 3) ∨ ((-1 : Int) = 5)) := by
  exact ⟨by decide, Or.inl (by constructor <;> decide)⟩

/-- Membership in a range list is invariant under permutation. -/
theorem isValueInRanges_perm {rs1 rs2 : List Range} (h : rs1.Perm rs2) (v : Int) :
    isValueInRanges rs1 v = isValueInRanges rs2 v := by
  induction h with
  | nil => rfl
  | cons x _ ih =>
    simp only [isValueInRanges, List.any_cons] at ih ⊢
    rw [ih]
  | swap x y l =>
    simp only [isValueInRanges, List.any_cons]
    cases decide (v ≥ y.From) && decide (v ≤ y.To) <;>
      cases decide (v ≥ x.From) && decide (v ≤ x.To) <;> simp
  | trans _ _ ih1 ih2 => rw [ih1, ih2]

/-- C2 (amended): the claimed law holds for *natural* numbers within `int`
range: membership in the ranges parsed from the text `a-b,c` is exactly
`a ≤ v ≤ b ∨ v = c`; the two token shapes parse as claimed, and membership
is invariant under reordering the ranges.  (The original claim over all
integers fails: a negative `a` makes the dash-split three-way, see the
counterexample.) -/
theorem rangeText_membership_amended :
    (∀ (a b c : Nat) (v : Int), a < 2 ^ 63 → b < 2 ^ 63 → c < 2 ^ 63 →
      (isValueInRanges (parseRanges ((natStr a ++ '-' :: natStr b) ++ ',' :: natStr c)) v = true ↔
        (((a : Int) ≤ v ∧ v ≤ (b : Int)) ∨ v = (c : Int))))
    ∧ parseRange (strOf "200") = { From := 200, To := 200 }
    ∧ parseRange (strOf "300-399") = { From := 300, To := 399 }
    ∧ (∀ (rs1 rs2 : List Range) (v : Int), rs1.Perm rs2 →
        isValueInRanges rs1 v = isValueInRanges rs2 v) := by
  refine ⟨?_, by decide, by decide, fun rs1 rs2 v h => isValueInRanges_perm h v⟩
  intro a b c v ha hb hc
  have hsplit1 : splitChar ',' ((natStr a ++ '-' :: natStr b) ++ ',' :: natStr c)
      = (natStr a ++ '-' :: natStr b) :: [natStr c] := by
    rw [splitChar_sep_append (natStr c) ?_, splitChar_eq_single (not_mem_natStr (by decide) c)]
    intro hm
    rcases List.mem_append.1 hm with hm | hm
    · exact not_mem_natStr (by decide) a hm
    · rcases List.mem_cons.1 hm with hm | hm
      · exact absurd hm (by decide)
      · exact not_mem_natStr (by decide) b hm
  have hsplit2 : splitChar '-' (natStr a ++ '-' :: natStr b) = [natStr a, natStr b] := by
    rw [splitChar_sep_append (natStr b) (not_mem_natStr (by decide) a),
      splitChar_eq_single (not_mem_natStr (by decide) b)]
  have hr1 : parseRange (natStr a ++ '-' :: natStr b) = { From := (a : Int), To := (b : Int) } := by
    rw [parseRange, hsplit2]
    simp [atoi_natStr ha, atoi_natStr hb]
  have hr2 : parseRange (natStr c) = { From := (c : Int), To := (c : Int) } := by
    rw [parseRange, splitChar_eq_single (not_mem_natStr (by decide) c)]
    simp [atoi_natStr hc]
  rw [parseRanges, hsplit1]
  simp only [List.map_cons, List.map_nil, hr1, hr2]
  simp only [isValueInRanges, List.any_cons, List.any_nil, Bool.or_false, Bool.or_eq_true,
    Bool.and_eq_true, decide_eq_true_eq, ge_iff_le]
  constructor
  · rintro (⟨h1, h2⟩ | ⟨h1, h2⟩)
    · exact Or.inl ⟨h1, h2⟩
    · exact Or.inr (le_antisymm h2 h1)
  · rintro (⟨h1, h2⟩ | rfl)
    · exact Or.inl ⟨h1, h2⟩
    · exact Or.inr ⟨le_refl _, le_refl _⟩

/-- Witness for C2 (amended) at concrete values. -/
theorem rangeText_membership_amended_witness :
    (isValueInRanges (parseRanges ((natStr 100 ++ '-' :: natStr 300) ++ ',' :: natStr 404)) 200 = true ↔
      (((100 : Int) ≤ 200 ∧ (200 : Int) ≤ 300) ∨ (200 : Int) = 404))
    ∧ isValueInRanges [{ From := 1, To := 2 }, { From := 3, To := 4 }] 3
      = isValueInRanges [{ From := 3, To := 4 }, { From := 1, To := 2 }] 3 :=
  ⟨rangeText_membership_amended.1 100 300 404 200 (by norm_num) (by norm_num) (by norm_num),
   rangeText_membership_amended.2.2.2 _ _ 3 (by decide)⟩

end Reportable

namespace Matchlang

/-- Reading a valid natural index. -/
theorem getTok_append (pre l : List LexToken) (i : Nat) (h : i < l.length) :
    getTok (pre ++ l) ((pre.length + i : Nat) : Int) = some l[i] := by
  have hcond : 0 ≤ ((pre.length + i : Nat) : Int) ∧
      ((pre.length + i : Nat) : Int).toNat < (pre ++ l).length := by
    refine ⟨by omega, ?_⟩
    simp only [Int.toNat_natCast, List.length_append]
    omega
  rw [getTok, dif_pos hcond]
  congr 1
  rw [List.get_eq_getElem]
  simp only [Int.toNat_natCast]
  rw [List.getElem_append_right (by omega)]
  congr 1
  omega

/-- An index at or beyond the length is a panic. -/
theorem getTok_oob (ts : List LexToken) (i : Int) (h : ts.length ≤ i.toNat) :
    getTok ts i = none := by
  rw [getTok, dif_neg]
  intro hc
  omega

/-- A `Consuming` step just advances the state and position. -/
theorem consume_consuming (ts : List LexToken) (q : Nat) (a : Ast) :
    consume ⟨ts, q, .ParserConsumingState, a⟩
      = some (true, ⟨ts, q + 1, .ParserConsumedLeftState, a⟩) := rfl

/-- A `ConsumedLeft` step just advances the state and position. -/
theorem consume_left (ts : List LexToken) (q : Nat) (a : Ast) :
    consume ⟨ts, q, .ParserConsumedLeftState, a⟩
      = some (true, ⟨ts, q + 1, .ParserConsumedOperatorState, a⟩) := rfl

/-- A `ConsumedOperator` step just advances the state and position. -/
theorem consume_operator (ts : List LexToken) (q : Nat) (a : Ast) :
    consume ⟨ts, q, .ParserConsumedOperatorState, a⟩
      = some (true, ⟨ts, q + 1, .ParserConsumedRightState, a⟩) := rfl

/-- A `Done` parser reports `false` and stays put. -/
theorem consume_done (ts : List LexToken) (q : Nat) (a : Ast) :
    consume ⟨ts, q, .ParserDoneState, a⟩ = some (false, ⟨ts, q, .ParserDoneState, a⟩) := rfl

/-- A `ConsumedRight` step with all three tokens in range: overwrite the AST
with the fresh `Comparison` and go back to `Consuming` (more tokens left) or
to `Done`. -/
theorem consume_right {ts : List LexToken} (q : Nat) (a : Ast) {tl tm tr : LexToken}
    (h1 : getTok ts (q : Int) = some tl)
    (h2 : getTok ts ((q : Int) + 1) = some tm)
    (h3 : getTok ts ((q : Int) + 2) = some tr) :
    consume ⟨ts, q + 3, .ParserConsumedRightState, a⟩ =
      some (true, ⟨ts, q + 4,
        if ((q + 3 : Nat) : Int) < (ts.length : Int) - 1
        then .ParserConsumingState else .ParserDoneState,
        .comparison (lexTokenToOperator tm) (lexTokenToIdentifier tl) (.literal tr.value)⟩) := by
  have e1 : ((q + 3 : Nat) : Int) - 3 = (q : Int) := by push_cast; ring
  have e2 : ((q + 3 : Nat) : Int) - 2 = (q : Int) + 1 := by push_cast; ring
  have e3 : ((q + 3 : Nat) : Int) - 1 = (q : Int) + 2 := by push_cast; ring
  simp only [consume, e1, e2, e3, h1, h2, h3]
  rfl

/-- Unfold one `true` step of the run loop. -/
theorem runParser_step_true {fuel : Nat} {p q : Parser} (h : consume p = some (true, q)) :
    runParser (fuel + 1) p = runParser fuel q := by
  show (match consume p with
        | none => ParseOutcome.panicked
        | some (false, r) => ParseOutcome.ok r.ast
        | some (true, r) => runParser fuel r) = runParser fuel q
  rw [h]

/-- Unfold the final `false` step of the run loop. -/
theorem runParser_step_false {fuel : Nat} {p q : Parser} (h : consume p = some (false, q)) :
    runParser (fuel + 1) p = .ok q.ast := by
  show (match consume p with
        | none => ParseOutcome.panicked
        | some (false, r) => ParseOutcome.ok r.ast
        | some (true, r) => runParser fuel r) = ParseOutcome.ok q.ast
  rw [h]

/-- Unfold a panicking step of the run loop. -/
theorem runParser_step_none {fuel : Nat} {p : Parser} (h : consume p = none) :
    runParser (fuel + 1) p = .panicked := by
  show (match consume p with
        | none => ParseOutcome.panicked
        | some (false, r) => ParseOutcome.ok r.ast
        | some (true, r) => runParser fuel r) = ParseOutcome.panicked
  rw [h]

/-- One full four-state cycle from `Consuming` at an aligned position with
three readable tokens. -/
theorem run_cycle {ts : List LexToken} {q : Nat} (a : Ast) (fuel : Nat) {tl tm tr : LexToken}
    (h1 : getTok ts (q : Int) = some tl)
    (h2 : getTok ts ((q : Int) + 1) = some tm)
    (h3 : getTok ts ((q : Int) + 2) = some tr) :
    runParser (fuel + 4) ⟨ts, q, .ParserConsumingState, a⟩
      = runParser fuel ⟨ts, q + 4,
          if ((q + 3 : Nat) : Int) < (ts.length : Int) - 1
          then .ParserConsumingState else .ParserDoneState,
          .comparison (lexTokenToOperator tm) (lexTokenToIdentifier tl) (.literal tr.value)⟩ := by
  rw [show fuel + 4 = fuel + 3 + 1 from rfl,
    runParser_step_true (consume_consuming ts q a),
    show fuel + 3 = fuel + 2 + 1 from rfl,
    runParser_step_true (consume_left ts (q + 1) a),
    show fuel + 2 = fuel + 1 + 1 from rfl,
    runParser_step_true (consume_operator ts (q + 2) a),
    runParser_step_true (consume_right q a h1 h2 h3)]

/-- Length of a non-empty chain: `4k - 1` tokens for `k` triples. -/
theorem chainToks_length (sep : LexToken) :
    ∀ (trs : List (LexToken × LexToken × LexToken)) (t : LexToken × LexToken × LexToken),
      (chainToks sep (t :: trs)).length = 4 * trs.length + 3 := by
  intro trs
  induction trs with
  | nil =>
    intro t
    obtain ⟨x, y, z⟩ := t
    rfl
  | cons t2 trs2 ih =>
    intro t
    obtain ⟨x, y, z⟩ := t
    rw [show chainToks sep ((x, y, z) :: t2 :: trs2)
        = [x, y, z, sep] ++ chainToks sep (t2 :: trs2) from by cases trs2 <;> rfl]
    simp only [List.length_append, List.length_cons, ih t2, List.length_nil]
    omega

/-- Running a chain of comparison triples: each cycle overwrites the AST, so
only the last triple's comparison survives. -/
theorem run_chain :
    ∀ (trs : List (LexToken × LexToken × LexToken)) (t0 : LexToken × LexToken × LexToken)
      (sep : LexToken) (pre : List LexToken) (a : Ast) (fuel : Nat),
      4 * trs.length + 5 ≤ fuel →
      runParser fuel ⟨pre ++ chainToks sep (t0 :: trs), pre.length, .ParserConsumingState, a⟩
        = .ok (mkComp (trs.getLastD t0)) := by
  intro trs
  induction trs with
  | nil =>
    intro t0 sep pre a fuel hfuel
    obtain ⟨a0, b0, c0⟩ := t0
    rw [show chainToks sep [(a0, b0, c0)] = a0 :: b0 :: c0 :: [] from rfl]
    have h1 : getTok (pre ++ (a0 :: b0 :: c0 :: [])) ((pre.length : Nat) : Int) = some a0 := by
      simpa using getTok_append pre (a0 :: b0 :: c0 :: []) 0 (by simp)
    have h2 : getTok (pre ++ (a0 :: b0 :: c0 :: [])) ((pre.length : Int) + 1) = some b0 := by
      simpa using getTok_append pre (a0 :: b0 :: c0 :: []) 1 (by simp)
    have h3 : getTok (pre ++ (a0 :: b0 :: c0 :: [])) ((pre.length : Int) + 2) = some c0 := by
      simpa using getTok_append pre (a0 :: b0 :: c0 :: []) 2 (by simp)
    obtain ⟨g, rfl⟩ : ∃ g, fuel = g + 1 + 4 := ⟨fuel - 5, by omega⟩
    rw [run_cycle a (g + 1) h1 h2 h3]
    simp only [List.length_append, List.length_cons, List.length_nil]
    rw [if_neg (by push_cast; omega)]
    rw [runParser_step_false (consume_done _ _ _)]
    rfl
  | cons t1 trs' ih =>
    intro t0 sep pre a fuel hfuel
    obtain ⟨a0, b0, c0⟩ := t0
    rw [show chainToks sep ((a0, b0, c0) :: t1 :: trs')
        = a0 :: b0 :: c0 :: sep :: chainToks sep (t1 :: trs') from by cases trs' <;> rfl]
    have h1 : getTok (pre ++ (a0 :: b0 :: c0 :: sep :: chainToks sep (t1 :: trs')))
        ((pre.length : Nat) : Int) = some a0 := by
      simpa using getTok_append pre (a0 :: b0 :: c0 :: sep :: chainToks sep (t1 :: trs')) 0 (by simp)
    have h2 : getTok (pre ++ (a0 :: b0 :: c0 :: sep :: chainToks sep (t1 :: trs')))
        ((pre.length : Int) + 1) = some b0 := by
      simpa using getTok_append pre (a0 :: b0 :: c0 :: sep :: chainToks sep (t1 :: trs')) 1 (by simp)
    have h3 : getTok (pre ++ (a0 :: b0 :: c0 :: sep :: chainToks sep (t1 :: trs')))
        ((pre.length : Int) + 2) = some c0 := by
      simpa using getTok_append pre (a0 :: b0 :: c0 :: sep :: chainToks sep (t1 :: trs')) 2 (by simp)
    obtain ⟨g, rfl⟩ : ∃ g, fuel = g + 4 := ⟨fuel - 4, by omega⟩
    rw [run_cycle a g h1 h2 h3]
    rw [if_pos ?_]
    · rw [show pre ++ (a0 :: b0 :: c0 :: sep :: chainToks sep (t1 :: trs'))
          = (pre ++ [a0, b0, c0, sep]) ++ chainToks sep (t1 :: trs') from by simp,
        show pre.length + 4 = (pre ++ [a0, b0, c0, sep]).length from by simp,
        List.getLastD_cons]
      refine ih t1 sep (pre ++ [a0, b0, c0, sep]) _ g ?_
      simp only [List.length_cons] at hfuel
      omega
    · simp only [List.length_append, List.length_cons, chainToks_length sep trs' t1]
      push_cast
      omega

/-- Model of `consume` never produces the `ConsumedLogicalOperator` state. -/
theorem consume_state_inv {p : Parser} {b : Bool} {q : Parser} (h : consume p = some (b, q))
    (hs : p.state ≠ .ParserConsumedLogicalOperatorState) :
    q.state ≠ .ParserConsumedLogicalOperatorState := by
  rcases p with ⟨ts, pos, st, a⟩
  cases st
  case ParserConsumedLogicalOperatorState => exact absurd rfl hs
  case ParserConsumingState =>
    rw [consume_consuming] at h
    simp only [Option.some.injEq, Prod.mk.injEq] at h
    obtain ⟨-, rfl⟩ := h
    simp
  case ParserConsumedLeftState =>
    rw [consume_left] at h
    simp only [Option.some.injEq, Prod.mk.injEq] at h
    obtain ⟨-, rfl⟩ := h
    simp
  case ParserConsumedOperatorState =>
    rw [consume_operator] at h
    simp only [Option.some.injEq, Prod.mk.injEq] at h
    obtain ⟨-, rfl⟩ := h
    simp
  case ParserDoneState =>
    rw [consume_done] at h
    simp only [Option.some.injEq, Prod.mk.injEq] at h
    obtain ⟨-, rfl⟩ := h
    simp
  case ParserConsumedRightState =>
    rcases hg1 : getTok ts ((pos : Int) - 3) with _ | tl
    · rw [show consume ⟨ts, pos, .ParserConsumedRightState, a⟩ = none from by
        simp [consume, hg1]] at h
      exact Option.noConfusion h
    · rcases hg2 : getTok ts ((pos : Int) - 2) with _ | tm
      · rw [show consume ⟨ts, pos, .ParserConsumedRightState, a⟩ = none from by
          simp [consume, hg1, hg2]] at h
        exact Option.noConfusion h
      · rcases hg3 : getTok ts ((pos : Int) - 1) with _ | tr
        · rw [show consume ⟨ts, pos, .ParserConsumedRightState, a⟩ = none from by
            simp [consume, hg1, hg2, hg3]] at h
          exact Option.noConfusion h
        · rw [show consume ⟨ts, pos, .ParserConsumedRightState, a⟩
              = some (true, ⟨ts, pos + 1,
                  if (pos : Int) < (ts.length : Int) - 1
                  then .ParserConsumingState else .ParserDoneState,
                  .comparison (lexTokenToOperator tm) (lexTokenToIdentifier tl)
                    (.literal tr.value)⟩) from by simp [consume, hg1, hg2, hg3]] at h
          simp only [Option.some.injEq, Prod.mk.injEq] at h
          obtain ⟨-, rfl⟩ := h
          dsimp only
          split <;> simp

/-- Model of `lexTokenToIdentifier` always builds an `Identifier` node. -/
theorem astNoLogical_ident (t : LexToken) : astNoLogical (lexTokenToIdentifier t) = true := by
  cases h : t.type <;> simp [lexTokenToIdentifier, h, astNoLogical]

/-- Model of `consume` never writes a `LogicalExpression` into the AST. -/
theorem consume_ast_inv {p : Parser} {b : Bool} {q : Parser} (h : consume p = some (b, q))
    (ha : astNoLogical p.ast = true) : astNoLogical q.ast = true := by
  rcases p with ⟨ts, pos, st, a⟩
  cases st
  case ParserConsumedLogicalOperatorState =>
    rw [show consume ⟨ts, pos, .ParserConsumedLogicalOperatorState, a⟩
        = some (true, ⟨ts, pos + 1, .ParserConsumedLogicalOperatorState, a⟩) from rfl] at h
    simp only [Option.some.injEq, Prod.mk.injEq] at h
    obtain ⟨-, rfl⟩ := h
    exact ha
  case ParserConsumingState =>
    rw [consume_consuming] at h
    simp only [Option.some.injEq, Prod.mk.injEq] at h
    obtain ⟨-, rfl⟩ := h
    exact ha
  case ParserConsumedLeftState =>
    rw [consume_left] at h
    simp only [Option.some.injEq, Prod.mk.injEq] at h
    obtain ⟨-, rfl⟩ := h
    exact ha
  case ParserConsumedOperatorState =>
    rw [consume_operator] at h
    simp only [Option.some.injEq, Prod.mk.injEq] at h
    obtain ⟨-, rfl⟩ := h
    exact ha
  case ParserDoneState =>
    rw [consume_done] at h
    simp only [Option.some.injEq, Prod.mk.injEq] at h
    obtain ⟨-, rfl⟩ := h
    exact ha
  case ParserConsumedRightState =>
    rcases hg1 : getTok ts ((pos : Int) - 3) with _ | tl
    · rw [show consume ⟨ts, pos, .ParserConsumedRightState, a⟩ = none from by
        simp [consume, hg1]] at h
      exact Option.noConfusion h
    · rcases hg2 : getTok ts ((pos : Int) - 2) with _ | tm
      · rw [show consume ⟨ts, pos, .ParserConsumedRightState, a⟩ = none from by
          simp [consume, hg1, hg2]] at h
        exact Option.noConfusion h
      · rcases hg3 : getTok ts ((pos : Int) - 1) with _ | tr
        · rw [show consume ⟨ts, pos, .ParserConsumedRightState, a⟩ = none from by
            simp [consume, hg1, hg2, hg3]] at h
          exact Option.noConfusion h
        · rw [show consume ⟨ts, pos, .ParserConsumedRightState, a⟩
              = some (true, ⟨ts, pos + 1,
                  if (pos : Int) < (ts.length : Int) - 1
                  then .ParserConsumingState else .ParserDoneState,
                  .comparison (lexTokenToOperator tm) (lexTokenToIdentifier tl)
                    (.literal tr.value)⟩) from by simp [consume, hg1, hg2, hg3]] at h
          simp only [Option.some.injEq, Prod.mk.injEq] at h
          obtain ⟨-, rfl⟩ := h
          simp [astNoLogical, astNoLogical_ident]

/-- Any AST the run loop returns is free of `LogicalExpression` nodes when
the starting AST is. -/
theorem runParser_ok_noLogical :
    ∀ (fuel : Nat) (p : Parser) (a : Ast), astNoLogical p.ast = true →
      runParser fuel p = .ok a → astNoLogical a = true := by
  intro fuel
  induction fuel with
  | zero =>
    intro p a ha h
    simp [runParser] at h
  | succ n ih =>
    intro p a ha h
    rcases hc : consume p with _ | ⟨b, q⟩
    · rw [runParser_step_none hc] at h
      exact ParseOutcome.noConfusion h
    · cases b
      · rw [runParser_step_false hc] at h
        simp only [ParseOutcome.ok.injEq] at h
        rw [← h]
        exact consume_ast_inv hc ha
      · rw [runParser_step_true hc] at h
        exact ih q a (consume_ast_inv hc ha) h

/-- Unfold one `true` step of `consumeN`. -/
theorem consumeN_step_true {n : Nat} {p q : Parser} (h : consume p = some (true, q)) :
    consumeN (n + 1) p = consumeN n q := by
  show (match consume p with
        | none => none
        | some (false, r) => some r
        | some (true, r) => consumeN n r) = consumeN n q
  rw [h]

/-- Unfold the final `false` step of `consumeN`. -/
theorem consumeN_step_false {n : Nat} {p q : Parser} (h : consume p = some (false, q)) :
    consumeN (n + 1) p = some q := by
  show (match consume p with
        | none => none
        | some (false, r) => some r
        | some (true, r) => consumeN n r) = some q
  rw [h]

/-- A parser reached by iterating `consume` from a non-`LogicalOperator`
state is never in the `LogicalOperator` state. -/
theorem consumeN_state :
    ∀ (n : Nat) (p q : Parser), p.state ≠ .ParserConsumedLogicalOperatorState →
      consumeN n p = some q → q.state ≠ .ParserConsumedLogicalOperatorState := by
  intro n
  induction n with
  | zero =>
    intro p q hp h
    simp only [consumeN, Option.some.injEq] at h
    rw [← h]
    exact hp
  | succ n ih =>
    intro p q hp h
    rcases hc : consume p with _ | ⟨b, r⟩
    · rw [show consumeN (n + 1) p = none from by
        show (match consume p with
              | none => none
              | some (false, r) => some r
              | some (true, r) => consumeN n r) = none
        rw [hc]] at h
      exact Option.noConfusion h
    · cases b
      · rw [consumeN_step_false hc] at h
        simp only [Option.some.injEq] at h
        rw [← h]
        exact consume_state_inv hc hp
      · rw [consumeN_step_true hc] at h
        exact ih r q (consume_state_inv hc hp) h

/-- C3: for a chain of two or more comparison triples separated by an
(arbitrary, never inspected) separator token, `Parse` returns the single
`Comparison` built from the last triple; every AST the parser returns is free
of `LogicalExpression` nodes, and no run of the state machine ever enters
`ParserConsumedLogicalOperatorState`. -/
theorem parse_keeps_last_comparison :
    (∀ (sep : LexToken) (t1 t2 : LexToken × LexToken × LexToken)
        (rest : List (LexToken × LexToken × LexToken)),
      ParseTokens (chainToks sep (t1 :: t2 :: rest)) = .ok (mkComp (rest.getLastD t2)))
    ∧ (∀ (ts : List LexToken) (a : Ast), ParseTokens ts = .ok a → astNoLogical a = true)
    ∧ (∀ (ts : List LexToken) (n : Nat) (p : Parser), consumeN n (initParser ts) = some p →
        p.state ≠ .ParserConsumedLogicalOperatorState) := by
  refine ⟨?_, ?_, ?_⟩
  · intro sep t1 t2 rest
    show runParser (4 * (chainToks sep (t1 :: t2 :: rest)).length + 8)
      ⟨chainToks sep (t1 :: t2 :: rest), 0, .ParserConsumingState, .nilast⟩
      = .ok (mkComp (rest.getLastD t2))
    rw [show (chainToks sep (t1 :: t2 :: rest)) = [] ++ chainToks sep (t1 :: t2 :: rest) from rfl,
      show (0 : Nat) = ([] : List LexToken).length from rfl,
      run_chain (t2 :: rest) t1 sep [] .nilast _ ?_, List.getLastD_cons]
    rw [List.nil_append, chainToks_length]
    simp only [List.length_cons]
    omega
  · intro ts a h
    exact runParser_ok_noLogical (4 * ts.length + 8) (initParser ts) a rfl h
  · intro ts n p h
    refine consumeN_state n (initParser ts) p ?_ h
    simp [initParser]

/-- Witness for C3 at a concrete two-comparison chain. -/
theorem parse_keeps_last_comparison_witness :
    ParseTokens (chainToks tokAnd [(tokCode, tokEq, tokLit "200"), (tokSize, tokNe, tokLit "0")])
      = .ok (mkComp (tokSize, tokNe, tokLit "0"))
    ∧ astNoLogical (mkComp (tokSize, tokNe, tokLit "0")) = true
    ∧ ({ tokens := chainToks tokAnd [(tokCode, tokEq, tokLit "200"), (tokSize, tokNe, tokLit "0")],
         pos := 2, state := .ParserConsumedOperatorState, ast := .nilast } : Parser).state
        ≠ .ParserConsumedLogicalOperatorState :=
  ⟨parse_keeps_last_comparison.1 tokAnd (tokCode, tokEq, tokLit "200") (tokSize, tokNe, tokLit "0") [],
   parse_keeps_last_comparison.2.1
     (chainToks tokAnd [(tokCode, tokEq, tokLit "200"), (tokSize, tokNe, tokLit "0")])
     (mkComp (tokSize, tokNe, tokLit "0"))
     (parse_keeps_last_comparison.1 tokAnd (tokCode, tokEq, tokLit "200") (tokSize, tokNe, tokLit "0") []),
   parse_keeps_last_comparison.2.2
     (chainToks tokAnd [(tokCode, tokEq, tokLit "200"), (tokSize, tokNe, tokLit "0")]) 2 _ (by decide)⟩

/-- C10: on fewer than three tokens the state machine still walks its full
four-state cycle — three steps reach `ConsumedRight` at position 3 — and the
fourth step's `tokens[pos-1]` read (index 2) is outside the token list, a
panic; the loop yields no error value, the model result is `panicked`. -/
theorem truncated_input_panics :
    ∀ ts : List LexToken, ts.length < 3 →
      consumeN 3 (initParser ts) = some ⟨ts, 3, .ParserConsumedRightState, .nilast⟩
      ∧ consume ⟨ts, 3, .ParserConsumedRightState, .nilast⟩ = none
      ∧ ParseTokens ts = .panicked := by
  intro ts h
  have hpanic : consume ⟨ts, 3, .ParserConsumedRightState, .nilast⟩ = none := by
    have h3 : getTok ts 2 = none := getTok_oob ts 2 (by simp; omega)
    rcases hg1 : getTok ts 0 with _ | tl
    · simp [consume, hg1]
    · rcases hg2 : getTok ts 1 with _ | tm
      · simp [consume, hg1, hg2]
      · simp [consume, hg1, hg2, h3]
  refine ⟨?_, hpanic, ?_⟩
  · rw [show initParser ts = ⟨ts, 0, .ParserConsumingState, .nilast⟩ from rfl,
      consumeN_step_true (consume_consuming ts 0 .nilast),
      consumeN_step_true (consume_left ts 1 .nilast),
      consumeN_step_true (consume_operator ts 2 .nilast)]
    rfl
  · show runParser (4 * ts.length + 8) (initParser ts) = .panicked
    obtain ⟨g, hg⟩ : ∃ g, 4 * ts.length + 8 = g + 4 := ⟨4 * ts.length + 4, by omega⟩
    rw [show initParser ts = ⟨ts, 0, .ParserConsumingState, .nilast⟩ from rfl, hg,
      show g + 4 = g + 3 + 1 from rfl,
      runParser_step_true (consume_consuming ts 0 .nilast),
      show g + 3 = g + 2 + 1 from rfl,
      runParser_step_true (consume_left ts 1 .nilast),
      show g + 2 = g + 1 + 1 from rfl,
      runParser_step_true (consume_operator ts 2 .nilast),
      runParser_step_none hpanic]

/-- Witness for C10 at the empty token list. -/
theorem truncated_input_panics_witness :
    consumeN 3 (initParser []) = some ⟨[], 3, .ParserConsumedRightState, .nilast⟩
    ∧ consume ⟨[], 3, .ParserConsumedRightState, .nilast⟩ = none
    ∧ ParseTokens [] = .panicked :=
  truncated_input_panics [] (by decide)

end Matchlang

/-! ## String lemmas for the `http` claims -/

/-- A list is always a prefix of itself followed by anything. -/
theorem isPref_append_self (p t : Str) : isPref p (p ++ t) = true := by
  induction p with
  | nil => rfl
  | cons c p' ih => simp [isPref, ih]

/-- A prefix is no longer than the whole. -/
theorem isPref_length {p s : Str} (h : isPref p s = true) : p.length ≤ s.length := by
  induction p generalizing s with
  | nil => simp
  | cons c p' ih =>
    cases s with
    | nil => simp [isPref] at h
    | cons d s' =>
      simp only [isPref, Bool.and_eq_true] at h
      have := ih h.2
      simp only [List.length_cons]
      omega

/-- Replacing with an empty `old` inserts `new` at the front (Go semantics). -/
theorem replaceFirst_nil_old (s new : Str) : replaceFirst s [] new = new ++ s := by
  cases s <;> simp [replaceFirst]

/-- Replacing when `old` sits at the front. -/
theorem replaceFirst_head {old : Str} (h : old ≠ []) (t new : Str) :
    replaceFirst (old ++ t) old new = new ++ t := by
  rcases old with _ | ⟨c, old'⟩
  · exact absurd rfl h
  show replaceFirst (c :: (old' ++ t)) (c :: old') new = new ++ t
  rw [replaceFirst, if_neg (by simp), if_pos ?_]
  · simp only [List.length_cons, List.drop_succ_cons]
    rw [List.drop_left]
  · rw [show c :: (old' ++ t) = (c :: old') ++ t from rfl]
    exact isPref_append_self (c :: old') t

/-- Replacing walks past a position where `old` is not a prefix. -/
theorem replaceFirst_skip {s old new : Str} {c : Char} (h2 : isPref old (c :: s) = false) :
    replaceFirst (c :: s) old new = c :: replaceFirst s old new := by
  have hone : old ≠ [] := by
    intro hh
    rw [hh] at h2
    simp [isPref] at h2
  rw [replaceFirst, if_neg hone, if_neg (by simp [h2])]

/-- Replacing the first occurrence when the occurrence position is known:
if `old` occurs nowhere in the first `|x|` positions, the occurrence after
`x` is replaced. -/
theorem replaceFirst_at {x old y new : Str} (hold : old ≠ [])
    (hocc : ∀ j, j < x.length → isPref old ((x ++ old ++ y).drop j) = false) :
    replaceFirst (x ++ old ++ y) old new = x ++ new ++ y := by
  induction x with
  | nil => simpa using replaceFirst_head hold y new
  | cons c x' ih =>
    have h0 : isPref old (c :: (x' ++ old ++ y)) = false := by
      have := hocc 0 (by simp)
      simpa using this
    rw [show (c :: x') ++ old ++ y = c :: (x' ++ old ++ y) from rfl, replaceFirst_skip h0, ih ?_]
    · rfl
    · intro j hj
      have := hocc (j + 1) (by simp only [List.length_cons]; omega)
      simpa using this

/-- A character not in the list has index `-1`. -/
theorem idxOfChar_not_mem {c : Char} {s : Str} (h : c ∉ s) : idxOfChar c s = -1 := by
  induction s with
  | nil => rfl
  | cons a rest ih =>
    simp only [List.mem_cons, not_or] at h
    rw [idxOfChar, if_neg (fun ha => h.1 ha.symm), ih h.2]
    rfl

/-- The index of the first occurrence after an occurrence-free block. -/
theorem idxOfChar_append {c : Char} {x : Str} (y : Str) (h : c ∉ x) :
    idxOfChar c (x ++ c :: y) = (x.length : Int) := by
  induction x with
  | nil => simp [idxOfChar]
  | cons a x' ih =>
    simp only [List.mem_cons, not_or] at h
    rw [List.cons_append, idxOfChar, if_neg (fun ha => h.1 ha.symm), ih h.2, if_neg (by omega)]
    simp only [List.length_cons]
    push_cast
    ring

/-- A found `idxSeq` index is a genuine first occurrence. -/
theorem idxSeq_found {pat : Str} :
    ∀ s : Str, 0 ≤ idxSeq pat s →
      isPref pat (s.drop (idxSeq pat s).toNat) = true
      ∧ ∀ j < (idxSeq pat s).toNat, isPref pat (s.drop j) = false := by
  intro s
  induction s with
  | nil =>
    intro h0
    rcases hp : isPref pat [] with _ | _
    · rw [idxSeq, hp] at h0
      simp at h0
    · rw [idxSeq, hp]
      refine ⟨by simpa using hp, ?_⟩
      simp
  | cons c rest ih =>
    intro h0
    rcases hp : isPref pat (c :: rest) with _ | _
    · rw [idxSeq, hp] at h0 ⊢
      simp only [Bool.false_eq_true, if_false] at h0 ⊢
      rcases lt_or_le (idxSeq pat rest) 0 with hneg | hpos
      · rw [if_pos hneg] at h0
        exact absurd h0 (by omega)
      · rw [if_neg (by omega)] at h0 ⊢
        obtain ⟨hpref, hmin⟩ := ih hpos
        have htn : (idxSeq pat rest + 1).toNat = (idxSeq pat rest).toNat + 1 := by omega
        rw [htn]
        refine ⟨?_, ?_⟩
        · rw [List.drop_succ_cons]
          exact hpref
        · intro k hk
          cases k with
          | zero => simpa using hp
          | succ k' =>
            rw [List.drop_succ_cons]
            exact hmin k' (by omega)
    · rw [idxSeq, hp]
      rw [if_pos rfl]
      refine ⟨by simpa using hp, ?_⟩
      simp

namespace Http

/-- Model of `parseRequestUri` splits at the first `"?"` when one occurs at a
positive index. -/
theorem parseRequestUri_split {pa : Str} (q : Str) (hmem : '?' ∉ pa) (hne : pa ≠ []) :
    parseRequestUri (pa ++ '?' :: q) = (pa, q) := by
  have hpos : (0 : Int) < (pa.length : Int) := by
    have h := List.length_pos.mpr hne
    omega
  have hd : List.drop (pa.length + 1) (pa ++ '?' :: q) = q := by
    rw [show pa ++ '?' :: q = (pa ++ ['?']) ++ q from by simp]
    exact List.drop_left' (by simp)
  rw [parseRequestUri, idxOfChar_append q hmem, if_pos hpos]
  simp only [Int.toNat_natCast]
  rw [List.take_left, hd]

/-- Model of `parseRequestUri` without a `"?"`: the whole URI is the path. -/
theorem parseRequestUri_noqm {u : Str} (hmem : '?' ∉ u) : parseRequestUri u = (u, []) := by
  rw [parseRequestUri, idxOfChar_not_mem hmem, if_neg (by omega)]

/-- C7's body clause: when the double CRLF occurs first at index `i`,
`extractBody` returns everything after it. -/
theorem extractBody_found {s : Str} {i : Nat} (h : idxSeq (strOf "\r\n\r\n") s = (i : Int)) :
    extractBody s = some (s.drop (i + 4))
    ∧ isPref (strOf "\r\n\r\n") (s.drop i) = true
    ∧ ∀ j < i, isPref (strOf "\r\n\r\n") (s.drop j) = false := by
  have h0 : 0 ≤ idxSeq (strOf "\r\n\r\n") s := by rw [h]; omega
  obtain ⟨hpref, hmin⟩ := idxSeq_found s h0
  rw [h] at hpref hmin
  simp only [Int.toNat_natCast] at hpref hmin
  have hlen4 : 4 ≤ s.length - i := by
    have h1 := isPref_length hpref
    have h2 : (strOf "\r\n\r\n").length = 4 := rfl
    simp only [List.length_drop] at h1
    omega
  refine ⟨?_, hpref, hmin⟩
  have ht : ((i : Int) + 4).toNat = i + 4 := by omega
  simp only [extractBody, h, ht]
  rw [if_pos ⟨by omega, by omega⟩]

/-- Splitting a string that starts with CRLF. -/
theorem split2_cons_pos (y : Str) :
    split2 '\r' '\n' ('\r' :: '\n' :: y) = [] :: split2 '\r' '\n' y := by
  rw [split2, if_pos ⟨rfl, rfl⟩]

/-- Model of `bytes.Split` on CRLF peels off a CR-free first line. -/
theorem split2_crlf_append {x : Str} (y : Str) (h : '\r' ∉ x) :
    split2 '\r' '\n' (x ++ '\r' :: '\n' :: y) = x :: split2 '\r' '\n' y := by
  induction x with
  | nil => simpa using split2_cons_pos y
  | cons c x' ih =>
    simp only [List.mem_cons, not_or] at h
    cases x' with
    | nil =>
      rw [show (c :: ([] : Str)) ++ '\r' :: '\n' :: y = c :: '\r' :: '\n' :: y from rfl,
        split2, if_neg (by rintro ⟨h1, h2⟩; exact absurd h2 (by decide)),
        split2_cons_pos y]
    | cons e x'' =>
      have hne : ¬(c = '\r' ∧ e = '\n') := fun hc => h.1 hc.1.symm
      rw [show (c :: e :: x'') ++ '\r' :: '\n' :: y
          = c :: e :: (x'' ++ '\r' :: '\n' :: y) from by simp,
        split2, if_neg hne]
      have hih := ih h.2
      rw [show (e :: x'') ++ '\r' :: '\n' :: y = e :: (x'' ++ '\r' :: '\n' :: y) from by simp] at hih
      rw [hih]

set_option maxRecDepth 100000 in
/-- C7: the concrete round trip, and the general splitting laws of the
request-line, URI and body extraction. -/
theorem parse_roundtrip_and_splitting :
    ((Parse rawRoundTrip σ0).map (fun x =>
        (x.1.Method, x.1.Path, x.1.Query, x.1.ProtocolVersion, x.1.Body))
      = some (strOf "GET", strOf "/a", strOf "x=1", strOf "HTTP/1.1", []))
    ∧ (∀ m u p : Str, ' ' ∉ m → ' ' ∉ u → ' ' ∉ p →
        parseRequestLine (m ++ ' ' :: u ++ ' ' :: p) = some (m, u, p))
    ∧ (∀ m u p rest : Str, '\r' ∉ m → '\r' ∉ u → '\r' ∉ p →
        ((split2 '\r' '\n' ((m ++ ' ' :: u ++ ' ' :: p) ++ '\r' :: '\n' :: rest)).headD [])
          = m ++ ' ' :: u ++ ' ' :: p)
    ∧ (∀ pa q : Str, '?' ∉ pa → pa ≠ [] → parseRequestUri (pa ++ '?' :: q) = (pa, q))
    ∧ (∀ u : Str, '?' ∉ u → parseRequestUri u = (u, []))
    ∧ (∀ (s : Str) (i : Nat), idxSeq (strOf "\r\n\r\n") s = (i : Int) →
        extractBody s = some (s.drop (i + 4))
        ∧ isPref (strOf "\r\n\r\n") (s.drop i) = true
        ∧ ∀ j < i, isPref (strOf "\r\n\r\n") (s.drop j) = false) := by
  refine ⟨by decide, ?_, ?_, fun pa q h1 h2 => parseRequestUri_split q h1 h2,
    fun u h1 => parseRequestUri_noqm h1, fun s i h1 => extractBody_found h1⟩
  · intro m u p hm hu hp
    have hs : splitChar ' ' (m ++ ' ' :: u ++ ' ' :: p) = [m, u, p] := by
      rw [show m ++ ' ' :: u ++ ' ' :: p = m ++ ' ' :: (u ++ ' ' :: p) from by simp,
        splitChar_sep_append (u ++ ' ' :: p) hm, splitChar_sep_append p hu,
        splitChar_eq_single hp]
    simp only [parseRequestLine, hs]
  · intro m u p rest hm hu hp
    have hmem : '\r' ∉ m ++ ' ' :: u ++ ' ' :: p := by
      intro hx
      rcases List.mem_append.1 hx with h1 | h1
      · rcases List.mem_append.1 h1 with h2 | h2
        · exact hm h2
        · rcases List.mem_cons.1 h2 with h3 | h3
          · exact absurd h3 (by decide)
          · exact hu h3
      · rcases List.mem_cons.1 h1 with h3 | h3
        · exact absurd h3 (by decide)
        · exact hp h3
    rw [split2_crlf_append (x := m ++ ' ' :: u ++ ' ' :: p) rest hmem]
    rfl

/-- C8: a parsed request's header map never retains a `"Cookie"` key, and
when a `Cookie` header is present the cookie map is exactly the result of
`parseRawCookies` on its value (split on `"; "` then `"="`, double quotes
escaped as `%22`). -/
theorem cookie_extraction :
    ∀ (bs : Str) (σ : Store) (r : Request) (σ' : Store), Parse bs σ = some (r, σ') →
      σ'.maps r.Headers cookieKey = none
      ∧ (∀ rawC : Str, cookieHeaderOf bs = some rawC →
          ∃ cm : GoMap, parseRawCookies emptyMap rawC = some cm ∧ σ'.maps r.Cookies = cm) := by
  intro bs σ r σ' h
  rcases hq1 : parseRequestLine ((split2 '\r' '\n' bs).headD []) with _ | ⟨method, uri, proto⟩
  · simp only [Parse, hq1] at h
    exact Option.noConfusion h
  · rcases hq2 : parseHeaders bs with _ | headers0
    · simp only [Parse, hq1, hq2] at h
      exact Option.noConfusion h
    · rcases hq3 : headers0 cookieKey with _ | rawC0
      · rcases hq5 : extractBody bs with _ | body
        · simp only [Parse, hq1, hq2, hq3, hq5] at h
          exact Option.noConfusion h
        · simp only [Parse, hq1, hq2, hq3, hq5, Option.some.injEq, Prod.mk.injEq] at h
          obtain ⟨rfl, rfl⟩ := h
          constructor
          · show (allocStore (allocStore σ headers0) emptyMap).maps σ.next cookieKey = none
            rw [show (allocStore (allocStore σ headers0) emptyMap).maps σ.next = headers0 from by
              show (if σ.next = σ.next + 1 then emptyMap
                    else if σ.next = σ.next then headers0 else σ.maps σ.next) = headers0
              rw [if_neg (by omega), if_pos rfl]]
            exact hq3
          · intro rawC hraw
            rw [cookieHeaderOf, hq2] at hraw
            simp only [Option.some_bind] at hraw
            rw [hq3] at hraw
            exact Option.noConfusion hraw
      · rcases hq4 : parseRawCookies emptyMap rawC0 with _ | cm
        · simp only [Parse, hq1, hq2, hq3, hq4, Option.map_none] at h
          exact Option.noConfusion h
        · rcases hq5 : extractBody bs with _ | body
          · simp only [Parse, hq1, hq2, hq3, hq4, Option.map_some, hq5] at h
            exact Option.noConfusion h
          · simp only [Parse, hq1, hq2, hq3, hq4, Option.map_some, hq5, Option.some.injEq,
              Prod.mk.injEq] at h
            obtain ⟨rfl, rfl⟩ := h
            constructor
            · show (allocStore (allocStore σ (mapDelete headers0 cookieKey)) cm).maps
                  σ.next cookieKey = none
              rw [show (allocStore (allocStore σ (mapDelete headers0 cookieKey)) cm).maps σ.next
                  = mapDelete headers0 cookieKey from by
                show (if σ.next = σ.next + 1 then cm
                      else if σ.next = σ.next then mapDelete headers0 cookieKey
                      else σ.maps σ.next) = mapDelete headers0 cookieKey
                rw [if_neg (by omega), if_pos rfl]]
              show (if cookieKey = cookieKey then none else headers0 cookieKey) = none
              rw [if_pos rfl]
            · intro rawC hraw
              rw [cookieHeaderOf, hq2] at hraw
              simp only [Option.some_bind] at hraw
              rw [hq3] at hraw
              simp only [Option.some.injEq] at hraw
              subst hraw
              refine ⟨cm, hq4, ?_⟩
              show (if σ.next + 1 = σ.next + 1 then cm
                    else if σ.next + 1 = σ.next then mapDelete headers0 cookieKey
                    else σ.maps (σ.next + 1)) = cm
              rw [if_pos rfl]

/-- Witness for C7 at concrete inputs. -/
theorem parse_roundtrip_and_splitting_witness :
    parseRequestLine (strOf "GET" ++ ' ' :: strOf "/a?x=1" ++ ' ' :: strOf "HTTP/1.1")
      = some (strOf "GET", strOf "/a?x=1", strOf "HTTP/1.1")
    ∧ (split2 '\r' '\n' ((strOf "GET" ++ ' ' :: strOf "/" ++ ' ' :: strOf "HTTP/1.1")
          ++ '\r' :: '\n' :: strOf "Host: h")).headD []
        = strOf "GET" ++ ' ' :: strOf "/" ++ ' ' :: strOf "HTTP/1.1"
    ∧ parseRequestUri (strOf "/a" ++ '?' :: strOf "x=1") = (strOf "/a", strOf "x=1")
    ∧ parseRequestUri (strOf "/a") = (strOf "/a", [])
    ∧ extractBody (strOf "ab\r\n\r\ncd") = some ((strOf "ab\r\n\r\ncd").drop 6) :=
  ⟨parse_roundtrip_and_splitting.2.1 (strOf "GET") (strOf "/a?x=1") (strOf "HTTP/1.1")
      (by decide) (by decide) (by decide),
   parse_roundtrip_and_splitting.2.2.1 (strOf "GET") (strOf "/") (strOf "HTTP/1.1")
      (strOf "Host: h") (by decide) (by decide) (by decide),
   parse_roundtrip_and_splitting.2.2.2.1 (strOf "/a") (strOf "x=1") (by decide) (by decide),
   parse_roundtrip_and_splitting.2.2.2.2.1 (strOf "/a") (by decide),
   (parse_roundtrip_and_splitting.2.2.2.2.2 (strOf "ab\r\n\r\ncd") 2 (by decide)).1⟩

set_option maxRecDepth 100000 in
/-- Witness for C8 on a concrete request carrying a quoted cookie. -/
theorem cookie_extraction_witness :
    (Parse rawWithCookie σ0).map (fun x => x.2.maps x.1.Headers cookieKey) = some none
    ∧ (Parse rawWithCookie σ0).map (fun x => x.2.maps x.1.Cookies (strOf "b"))
        = some (some (strOf "%22x%22")) := by
  constructor
  · cases hp : Parse rawWithCookie σ0 with
    | none =>
      have hs : (Parse rawWithCookie σ0).isSome = true := by decide
      rw [hp] at hs
      exact Bool.noConfusion hs
    | some x =>
      have hhd := (cookie_extraction rawWithCookie σ0 x.1 x.2 (by rw [hp])).1
      show some (x.2.maps x.1.Headers cookieKey) = some none
      rw [hhd]
  · cases hp : Parse rawWithCookie σ0 with
    | none =>
      have hs : (Parse rawWithCookie σ0).isSome = true := by decide
      rw [hp] at hs
      exact Bool.noConfusion hs
    | some x =>
      have hch : cookieHeaderOf rawWithCookie = some (strOf "a=1; b=\"x\"") := by decide
      obtain ⟨cm, hcm, hmaps⟩ := (cookie_extraction rawWithCookie σ0 x.1 x.2 (by rw [hp])).2
          (strOf "a=1; b=\"x\"") hch
      have hval : (parseRawCookies emptyMap (strOf "a=1; b=\"x\"")).map
          (fun f => f (strOf "b")) = some (some (strOf "%22x%22")) := by decide
      rw [hcm] at hval
      have hval2 : cm (strOf "b") = some (strOf "%22x%22") := Option.some.inj hval
      show some (x.2.maps x.1.Cookies (strOf "b")) = some (some (strOf "%22x%22"))
      rw [hmaps, hval2]

/-- A found character index points at the character. -/
theorem idxOfChar_found {c : Char} :
    ∀ s : Str, 0 ≤ idxOfChar c s →
      s.drop (idxOfChar c s).toNat = c :: s.drop ((idxOfChar c s).toNat + 1) := by
  intro s
  induction s with
  | nil =>
    intro h
    rw [idxOfChar] at h
    exact absurd h (by omega)
  | cons a rest ih =>
    intro h
    by_cases hac : a = c
    · subst hac
      rw [idxOfChar, if_pos rfl]
      simp
    · rw [idxOfChar, if_neg hac] at h ⊢
      rcases lt_or_le (idxOfChar c rest) 0 with hneg | hpos
      · rw [if_pos hneg] at h
        exact absurd h (by omega)
      · rw [if_neg (by omega)] at h ⊢
        have htn : (idxOfChar c rest + 1).toNat = (idxOfChar c rest).toNat + 1 := by omega
        rw [htn, List.drop_succ_cons, List.drop_succ_cons]
        exact ih hpos

/-- Every URI splits into a consistent path/query pair, or keeps the whole
URI as path with an empty query. -/
theorem parseRequestUri_cases (u : Str) :
    u = (parseRequestUri u).1 ++ '?' :: (parseRequestUri u).2
    ∨ ((parseRequestUri u).1 = u ∧ (parseRequestUri u).2 = []) := by
  rcases lt_or_le 0 (idxOfChar '?' u) with hpos | hle
  · left
    rw [parseRequestUri, if_pos hpos]
    conv_lhs => rw [← List.take_append_drop (idxOfChar '?' u).toNat u]
    rw [idxOfChar_found u (by omega)]
  · right
    rw [parseRequestUri, if_neg (by omega)]
    exact ⟨rfl, rfl⟩

/-- Replacing a whole non-empty string by `new` gives `new`. -/
theorem replaceFirst_self {old : Str} (h : old ≠ []) (new : Str) :
    replaceFirst old old new = new := by
  have hh := replaceFirst_head h [] new
  simpa using hh

set_option maxRecDepth 100000 in
/-- C5 counterexample: parsing a URI whose first `?` is its last character
yields `requestURI = path ++ "?"` with an empty query (inconsistent), and
`WithQuery` on a parsed request with an empty query prepends the new query
(`requestURI` becomes `"x=1/a"`, not `"/a?x=1"`), violating the invariant. -/
theorem uri_invariant_counterexample :
    (Parse rawBareQm σ0).map (fun x => decide (UriConsistent x.1)) = some false
    ∧ (Parse rawNoQuery σ0).map (fun x =>
        (decide (UriConsistent x.1),
         decide (UriConsistent (WithQuery x.1 (strOf "x=1") x.2).1),
         (WithQuery x.1 (strOf "x=1") x.2).1.RequestUri))
      = some (true, false, strOf "x=1/a") := by
  constructor
  · decide
  · decide

/-- C5 (amended): parsing establishes the invariant except when the URI's
first `?` at a positive index is its final character (then
`requestURI = path ++ "?"` with an empty query); `WithPath` preserves the
invariant; `WithQuery` preserves it provided the old query and the new query
are non-empty and the old query's first occurrence in the requestURI is the
one after the `?`. -/
theorem uri_invariant_amended :
    (∀ (bs : Str) (σ : Store) (r : Request) (σ' : Store), Parse bs σ = some (r, σ') →
      UriConsistent r ∨ (r.Query = [] ∧ r.RequestUri = r.Path ++ ['?']))
    ∧ (∀ (r : Request) (pa : Str) (σ : Store), UriConsistent r →
        UriConsistent (WithPath r pa σ).1)
    ∧ (∀ (r : Request) (q : Str) (σ : Store), UriConsistent r → r.Query ≠ [] → q ≠ [] →
        (∀ j, j ≤ r.Path.length → isPref r.Query (r.RequestUri.drop j) = false) →
        UriConsistent (WithQuery r q σ).1) := by
  refine ⟨?_, ?_, ?_⟩
  · intro bs σ r σ' h
    have hfld : r.Path = (parseRequestUri r.RequestUri).1
        ∧ r.Query = (parseRequestUri r.RequestUri).2 := by
      rcases hq1 : parseRequestLine ((split2 '\r' '\n' bs).headD []) with _ | ⟨method, uri, proto⟩
      · simp only [Parse, hq1] at h
        exact Option.noConfusion h
      · rcases hq2 : parseHeaders bs with _ | headers0
        · simp only [Parse, hq1, hq2] at h
          exact Option.noConfusion h
        · rcases hq3 : headers0 cookieKey with _ | rawC0
          · rcases hq5 : extractBody bs with _ | body
            · simp only [Parse, hq1, hq2, hq3, hq5] at h
              exact Option.noConfusion h
            · simp only [Parse, hq1, hq2, hq3, hq5, Option.some.injEq, Prod.mk.injEq] at h
              obtain ⟨rfl, rfl⟩ := h
              exact ⟨rfl, rfl⟩
          · rcases hq4 : parseRawCookies emptyMap rawC0 with _ | cm
            · simp only [Parse, hq1, hq2, hq3, hq4, Option.map_none] at h
              exact Option.noConfusion h
            · rcases hq5 : extractBody bs with _ | body
              · simp only [Parse, hq1, hq2, hq3, hq4, Option.map_some, hq5] at h
                exact Option.noConfusion h
              · simp only [Parse, hq1, hq2, hq3, hq4, Option.map_some, hq5, Option.some.injEq,
                  Prod.mk.injEq] at h
                obtain ⟨rfl, rfl⟩ := h
                exact ⟨rfl, rfl⟩
    obtain ⟨hpath, hquery⟩ := hfld
    rcases parseRequestUri_cases r.RequestUri with hu | ⟨hp1, hq1⟩
    · by_cases hq : r.Query = []
      · right
        refine ⟨hq, ?_⟩
        rw [← hquery, hq] at hu
        rw [hpath]
        exact hu
      · left
        rw [UriConsistent, if_neg hq, hpath, hquery]
        exact hu
    · left
      rw [UriConsistent, if_pos (by rw [hquery]; exact hq1), hpath, hp1]
  · intro r pa σ hr
    rw [UriConsistent] at hr
    show replaceFirst r.RequestUri r.Path pa
        = if r.Query = [] then pa else pa ++ '?' :: r.Query
    by_cases hq : r.Query = []
    · rw [if_pos hq] at hr ⊢
      rw [hr]
      by_cases hp : r.Path = []
      · rw [hp, replaceFirst_nil_old, List.append_nil]
      · exact replaceFirst_self hp pa
    · rw [if_neg hq] at hr ⊢
      rw [hr]
      by_cases hp : r.Path = []
      · rw [hp, List.nil_append, replaceFirst_nil_old]
      · exact replaceFirst_head hp ('?' :: r.Query) pa
  · intro r q σ hr hro hq hocc
    rw [UriConsistent] at hr
    rw [if_neg hro] at hr
    show replaceFirst r.RequestUri r.Query q
        = if q = [] then r.Path else r.Path ++ '?' :: q
    rw [if_neg hq, hr]
    have hx : r.Path ++ '?' :: r.Query = (r.Path ++ ['?']) ++ r.Query ++ [] := by simp
    rw [hx, replaceFirst_at hro ?_]
    · simp
    · intro j hj
      have hle : j ≤ r.Path.length := by
        have hxl : (r.Path ++ ['?']).length = r.Path.length + 1 := by simp
        omega
      have hpr := hocc j hle
      rw [hr, hx] at hpr
      exact hpr

set_option maxRecDepth 100000 in
/-- Witness for C5 (amended) at concrete inputs. -/
theorem uri_invariant_amended_witness :
    ((Parse rawRoundTrip σ0).elim False (fun x =>
        UriConsistent x.1 ∨ (x.1.Query = [] ∧ x.1.RequestUri = x.1.Path ++ ['?'])))
    ∧ UriConsistent (WithPath reqW (strOf "/b") σW).1
    ∧ UriConsistent (WithQuery reqW (strOf "y=2") σW).1 := by
  refine ⟨?_, ?_, ?_⟩
  · cases hp : Parse rawRoundTrip σ0 with
    | none =>
      have hs : (Parse rawRoundTrip σ0).isSome = true := by decide
      rw [hp] at hs
      exact Bool.noConfusion hs
    | some x =>
      exact uri_invariant_amended.1 rawRoundTrip σ0 x.1 x.2 (by rw [hp])
  · exact uri_invariant_amended.2.1 reqW (strOf "/b") σW (by decide)
  · refine uri_invariant_amended.2.2 reqW (strOf "y=2") σW (by decide) (by decide) (by decide) ?_
    intro j hj
    have hj2 : j ≤ 2 := by
      have hpl : reqW.Path.length = 2 := by decide
      omega
    interval_cases j <;> decide

/-- Overwritten slot of `storeSet`. -/
theorem storeSet_maps_same (σ : Store) (i : Nat) (m : GoMap) : (storeSet σ i m).maps i = m := by
  show (if i = i then m else σ.maps i) = m
  rw [if_pos rfl]

/-- Other slots of `storeSet` are untouched. -/
theorem storeSet_maps_other (σ : Store) {i j : Nat} (m : GoMap) (h : ¬j = i) :
    (storeSet σ i m).maps j = σ.maps j := by
  show (if j = i then m else σ.maps j) = σ.maps j
  rw [if_neg h]

/-- The freshly allocated slot holds the new contents. -/
theorem allocStore_maps_new (σ : Store) (m : GoMap) : (allocStore σ m).maps σ.next = m := by
  show (if σ.next = σ.next then m else σ.maps σ.next) = m
  rw [if_pos rfl]

/-- Allocation does not touch other slots. -/
theorem allocStore_maps_other (σ : Store) (m : GoMap) {j : Nat} (h : ¬j = σ.next) :
    (allocStore σ m).maps j = σ.maps j := by
  show (if j = σ.next then m else σ.maps j) = σ.maps j
  rw [if_neg h]

/-- The clone's header slot holds a copy of the original's header map. -/
theorem Clone_maps_h (r : Request) (σ : Store) :
    (Clone r σ).2.maps σ.next = σ.maps r.Headers := by
  show (allocStore (allocStore σ (σ.maps r.Headers)) (σ.maps r.Cookies)).maps σ.next
      = σ.maps r.Headers
  rw [allocStore_maps_other _ _ (show ¬σ.next = (allocStore σ (σ.maps r.Headers)).next from by
    show ¬σ.next = σ.next + 1
    omega)]
  exact allocStore_maps_new σ _

/-- The clone's cookie slot holds a copy of the original's cookie map. -/
theorem Clone_maps_c (r : Request) (σ : Store) :
    (Clone r σ).2.maps (σ.next + 1) = σ.maps r.Cookies := by
  show (allocStore (allocStore σ (σ.maps r.Headers)) (σ.maps r.Cookies)).maps (σ.next + 1)
      = σ.maps r.Cookies
  exact allocStore_maps_new _ _

/-- Cloning does not touch any live slot. -/
theorem Clone_maps_lt (r : Request) (σ : Store) {j : Nat} (h : j < σ.next) :
    (Clone r σ).2.maps j = σ.maps j := by
  show (allocStore (allocStore σ (σ.maps r.Headers)) (σ.maps r.Cookies)).maps j = σ.maps j
  rw [allocStore_maps_other _ _ (show ¬j = (allocStore σ (σ.maps r.Headers)).next from by
      show ¬j = σ.next + 1
      omega),
    allocStore_maps_other _ _ (by omega)]

/-- C4: every mutator operates on an independent clone.  For a request whose
map references are live, each mutator leaves the original's header and
cookie map contents untouched, returns fresh references, changes only the
requested component (plus the derived `requestURI` for path/query), and the
clone's map contents equal the original's except for the requested
insertion / replacement. -/
theorem mutators_copy_frame :
    ∀ (r : Request) (σ : Store), r.Headers < σ.next → r.Cookies < σ.next →
      (∀ pa : Str, cloneFrame r σ (WithPath r pa σ)
        ∧ (WithPath r pa σ).1.Path = pa
        ∧ (WithPath r pa σ).1.RequestUri = replaceFirst r.RequestUri r.Path pa
        ∧ (WithPath r pa σ).1.Method = r.Method
        ∧ (WithPath r pa σ).1.Query = r.Query
        ∧ (WithPath r pa σ).1.ProtocolVersion = r.ProtocolVersion
        ∧ (WithPath r pa σ).1.Body = r.Body
        ∧ (WithPath r pa σ).2.maps (WithPath r pa σ).1.Headers = σ.maps r.Headers
        ∧ (WithPath r pa σ).2.maps (WithPath r pa σ).1.Cookies = σ.maps r.Cookies)
      ∧ (∀ q : Str, cloneFrame r σ (WithQuery r q σ)
        ∧ (WithQuery r q σ).1.Query = q
        ∧ (WithQuery r q σ).1.RequestUri = replaceFirst r.RequestUri r.Query q
        ∧ (WithQuery r q σ).1.Method = r.Method
        ∧ (WithQuery r q σ).1.Path = r.Path
        ∧ (WithQuery r q σ).1.ProtocolVersion = r.ProtocolVersion
        ∧ (WithQuery r q σ).1.Body = r.Body
        ∧ (WithQuery r q σ).2.maps (WithQuery r q σ).1.Headers = σ.maps r.Headers
        ∧ (WithQuery r q σ).2.maps (WithQuery r q σ).1.Cookies = σ.maps r.Cookies)
      ∧ (∀ b : Str, cloneFrame r σ (WithBody r b σ)
        ∧ (WithBody r b σ).1.Body = b
        ∧ (WithBody r b σ).1.Method = r.Method
        ∧ (WithBody r b σ).1.RequestUri = r.RequestUri
        ∧ (WithBody r b σ).1.Path = r.Path
        ∧ (WithBody r b σ).1.Query = r.Query
        ∧ (WithBody r b σ).1.ProtocolVersion = r.ProtocolVersion
        ∧ (WithBody r b σ).2.maps (WithBody r b σ).1.Headers = σ.maps r.Headers
        ∧ (WithBody r b σ).2.maps (WithBody r b σ).1.Cookies = σ.maps r.Cookies)
      ∧ (∀ k v : Str, cloneFrame r σ (WithHeader r k v σ)
        ∧ (WithHeader r k v σ).1.Method = r.Method
        ∧ (WithHeader r k v σ).1.RequestUri = r.RequestUri
        ∧ (WithHeader r k v σ).1.Path = r.Path
        ∧ (WithHeader r k v σ).1.Query = r.Query
        ∧ (WithHeader r k v σ).1.ProtocolVersion = r.ProtocolVersion
        ∧ (WithHeader r k v σ).1.Body = r.Body
        ∧ (WithHeader r k v σ).2.maps (WithHeader r k v σ).1.Headers
            = mapInsert (σ.maps r.Headers) k v
        ∧ (WithHeader r k v σ).2.maps (WithHeader r k v σ).1.Cookies = σ.maps r.Cookies)
      ∧ (∀ k v : Str, cloneFrame r σ (WithCookie r k v σ)
        ∧ (WithCookie r k v σ).1.Method = r.Method
        ∧ (WithCookie r k v σ).1.RequestUri = r.RequestUri
        ∧ (WithCookie r k v σ).1.Path = r.Path
        ∧ (WithCookie r k v σ).1.Query = r.Query
        ∧ (WithCookie r k v σ).1.ProtocolVersion = r.ProtocolVersion
        ∧ (WithCookie r k v σ).1.Body = r.Body
        ∧ (WithCookie r k v σ).2.maps (WithCookie r k v σ).1.Headers = σ.maps r.Headers
        ∧ (WithCookie r k v σ).2.maps (WithCookie r k v σ).1.Cookies
            = mapInsert (σ.maps r.Cookies) k v)
      ∧ (∀ v : Str,
          match WithCookieString r v σ with
          | none => True
          | some out => cloneFrame r σ out
              ∧ out.1.Method = r.Method ∧ out.1.RequestUri = r.RequestUri
              ∧ out.1.Path = r.Path ∧ out.1.Query = r.Query
              ∧ out.1.ProtocolVersion = r.ProtocolVersion ∧ out.1.Body = r.Body
              ∧ out.2.maps out.1.Headers = σ.maps r.Headers
              ∧ ∃ cm : GoMap, parseRawCookies emptyMap v = some cm
                  ∧ out.2.maps out.1.Cookies = cm)
      ∧ (∀ hd : Str,
          match WithHeaderString r hd σ with
          | none => True
          | some out => cloneFrame r σ out
              ∧ out.1.Method = r.Method ∧ out.1.RequestUri = r.RequestUri
              ∧ out.1.Path = r.Path ∧ out.1.Query = r.Query
              ∧ out.1.ProtocolVersion = r.ProtocolVersion ∧ out.1.Body = r.Body
              ∧ out.2.maps out.1.Cookies = σ.maps r.Cookies
              ∧ ∃ k v : Str, parseHeader hd = some (k, v)
                  ∧ out.2.maps out.1.Headers = mapInsert (σ.maps r.Headers) k v) := by
  intro r σ hH hC
  refine ⟨?_, ?_, ?_, ?_, ?_, ?_, ?_⟩
  · intro pa
    refine ⟨⟨?_, ?_, ?_, ?_⟩, rfl, rfl, rfl, rfl, rfl, rfl, ?_, ?_⟩
    · exact Clone_maps_lt r σ hH
    · exact Clone_maps_lt r σ hC
    · show ¬σ.next = r.Headers
      omega
    · show ¬σ.next + 1 = r.Cookies
      omega
    · exact Clone_maps_h r σ
    · exact Clone_maps_c r σ
  · intro q
    refine ⟨⟨?_, ?_, ?_, ?_⟩, rfl, rfl, rfl, rfl, rfl, rfl, ?_, ?_⟩
    · exact Clone_maps_lt r σ hH
    · exact Clone_maps_lt r σ hC
    · show ¬σ.next = r.Headers
      omega
    · show ¬σ.next + 1 = r.Cookies
      omega
    · exact Clone_maps_h r σ
    · exact Clone_maps_c r σ
  · intro b
    refine ⟨⟨?_, ?_, ?_, ?_⟩, rfl, rfl, rfl, rfl, rfl, rfl, ?_, ?_⟩
    · exact Clone_maps_lt r σ hH
    · exact Clone_maps_lt r σ hC
    · show ¬σ.next = r.Headers
      omega
    · show ¬σ.next + 1 = r.Cookies
      omega
    · exact Clone_maps_h r σ
    · exact Clone_maps_c r σ
  · intro k v
    refine ⟨⟨?_, ?_, ?_, ?_⟩, rfl, rfl, rfl, rfl, rfl, rfl, ?_, ?_⟩
    · show (storeSet (Clone r σ).2 σ.next
          (mapInsert ((Clone r σ).2.maps σ.next) k v)).maps r.Headers = σ.maps r.Headers
      rw [storeSet_maps_other _ _ (by omega), Clone_maps_lt r σ hH]
    · show (storeSet (Clone r σ).2 σ.next
          (mapInsert ((Clone r σ).2.maps σ.next) k v)).maps r.Cookies = σ.maps r.Cookies
      rw [storeSet_maps_other _ _ (by omega), Clone_maps_lt r σ hC]
    · show ¬σ.next = r.Headers
      omega
    · show ¬σ.next + 1 = r.Cookies
      omega
    · show (storeSet (Clone r σ).2 σ.next
          (mapInsert ((Clone r σ).2.maps σ.next) k v)).maps σ.next
          = mapInsert (σ.maps r.Headers) k v
      rw [storeSet_maps_same, Clone_maps_h r σ]
    · show (storeSet (Clone r σ).2 σ.next
          (mapInsert ((Clone r σ).2.maps σ.next) k v)).maps (σ.next + 1) = σ.maps r.Cookies
      rw [storeSet_maps_other _ _ (by omega), Clone_maps_c r σ]
  · intro k v
    refine ⟨⟨?_, ?_, ?_, ?_⟩, rfl, rfl, rfl, rfl, rfl, rfl, ?_, ?_⟩
    · show (storeSet (Clone r σ).2 (σ.next + 1)
          (mapInsert ((Clone r σ).2.maps (σ.next + 1)) k v)).maps r.Headers = σ.maps r.Headers
      rw [storeSet_maps_other _ _ (by omega), Clone_maps_lt r σ hH]
    · show (storeSet (Clone r σ).2 (σ.next + 1)
          (mapInsert ((Clone r σ).2.maps (σ.next + 1)) k v)).maps r.Cookies = σ.maps r.Cookies
      rw [storeSet_maps_other _ _ (by omega), Clone_maps_lt r σ hC]
    · show ¬σ.next = r.Headers
      omega
    · show ¬σ.next + 1 = r.Cookies
      omega
    · show (storeSet (Clone r σ).2 (σ.next + 1)
          (mapInsert ((Clone r σ).2.maps (σ.next + 1)) k v)).maps σ.next = σ.maps r.Headers
      rw [storeSet_maps_other _ _ (by omega), Clone_maps_h r σ]
    · show (storeSet (Clone r σ).2 (σ.next + 1)
          (mapInsert ((Clone r σ).2.maps (σ.next + 1)) k v)).maps (σ.next + 1)
          = mapInsert (σ.maps r.Cookies) k v
      rw [storeSet_maps_same, Clone_maps_c r σ]
  · intro v
    cases hpc : parseRawCookies emptyMap v with
    | none =>
      rw [show WithCookieString r v σ = none from by simp only [WithCookieString, hpc]]
      trivial
    | some cm =>
      rw [show WithCookieString r v σ
          = some ({(Clone r σ).1 with Cookies := (Clone r σ).2.next},
              allocStore (Clone r σ).2 cm) from by simp only [WithCookieString, hpc]]
      refine ⟨⟨?_, ?_, ?_, ?_⟩, rfl, rfl, rfl, rfl, rfl, rfl, ?_, cm, rfl, ?_⟩
      · show (allocStore (Clone r σ).2 cm).maps r.Headers = σ.maps r.Headers
        rw [allocStore_maps_other _ _ (show ¬r.Headers = (Clone r σ).2.next from by
          show ¬r.Headers = σ.next + 2
          omega)]
        exact Clone_maps_lt r σ hH
      · show (allocStore (Clone r σ).2 cm).maps r.Cookies = σ.maps r.Cookies
        rw [allocStore_maps_other _ _ (show ¬r.Cookies = (Clone r σ).2.next from by
          show ¬r.Cookies = σ.next + 2
          omega)]
        exact Clone_maps_lt r σ hC
      · show ¬σ.next = r.Headers
        omega
      · show ¬(Clone r σ).2.next = r.Cookies
        show ¬σ.next + 2 = r.Cookies
        omega
      · show (allocStore (Clone r σ).2 cm).maps σ.next = σ.maps r.Headers
        rw [allocStore_maps_other _ _ (show ¬σ.next = (Clone r σ).2.next from by
          show ¬σ.next = σ.next + 2
          omega)]
        exact Clone_maps_h r σ
      · show (allocStore (Clone r σ).2 cm).maps (Clone r σ).2.next = cm
        exact allocStore_maps_new _ _
  · intro hd
    cases hph : parseHeader hd with
    | none =>
      rw [show WithHeaderString r hd σ = none from by simp only [WithHeaderString, hph]]
      trivial
    | some kv =>
      obtain ⟨k, v⟩ := kv
      rw [show WithHeaderString r hd σ
          = some ((Clone r σ).1, storeSet (Clone r σ).2 (Clone r σ).1.Headers
              (mapInsert ((Clone r σ).2.maps (Clone r σ).1.Headers) k v)) from by
        simp only [WithHeaderString, hph]]
      refine ⟨⟨?_, ?_, ?_, ?_⟩, rfl, rfl, rfl, rfl, rfl, rfl, ?_, k, v, rfl, ?_⟩
      · show (storeSet (Clone r σ).2 σ.next
            (mapInsert ((Clone r σ).2.maps σ.next) k v)).maps r.Headers = σ.maps r.Headers
        rw [storeSet_maps_other _ _ (by omega), Clone_maps_lt r σ hH]
      · show (storeSet (Clone r σ).2 σ.next
            (mapInsert ((Clone r σ).2.maps σ.next) k v)).maps r.Cookies = σ.maps r.Cookies
        rw [storeSet_maps_other _ _ (by omega), Clone_maps_lt r σ hC]
      · show ¬σ.next = r.Headers
        omega
      · show ¬σ.next + 1 = r.Cookies
        omega
      · show (storeSet (Clone r σ).2 σ.next
            (mapInsert ((Clone r σ).2.maps σ.next) k v)).maps (σ.next + 1) = σ.maps r.Cookies
        rw [storeSet_maps_other _ _ (by omega), Clone_maps_c r σ]
      · show (storeSet (Clone r σ).2 σ.next
            (mapInsert ((Clone r σ).2.maps σ.next) k v)).maps σ.next
            = mapInsert (σ.maps r.Headers) k v
        rw [storeSet_maps_same, Clone_maps_h r σ]

/-- Witness for C4 at a concrete request and store. -/
theorem mutators_copy_frame_witness :
    (WithPath reqW (strOf "/b") σW).1.Path = strOf "/b"
    ∧ (WithPath reqW (strOf "/b") σW).2.maps reqW.Headers = σW.maps reqW.Headers
    ∧ (WithHeader reqW (strOf "K") (strOf "V") σW).2.maps
        (WithHeader reqW (strOf "K") (strOf "V") σW).1.Headers
      = mapInsert (σW.maps reqW.Headers) (strOf "K") (strOf "V") :=
  ⟨((mutators_copy_frame reqW σW (by decide) (by decide)).1 (strOf "/b")).2.1,
   ((mutators_copy_frame reqW σW (by decide) (by decide)).1 (strOf "/b")).1.1,
   ((mutators_copy_frame reqW σW (by decide) (by decide)).2.2.2.1
      (strOf "K") (strOf "V")).2.2.2.2.2.2.2.1⟩

end Http

end Haze
